import Mathlib

/-!
Shallow embedding of the core of the SimplePathTracer renderer
(BVH construction and traversal, AABB, and the shader family), translated
from the C++ sources.  Scalars are embedded as exact numbers: the
BVH / AABB / Lambertian parts use `ℚ` (all their arithmetic is
+, -, *, /, comparisons), while the shaders that call `sqrt` /
`glm::normalize` (Metal, Dielectric, DisneyBRDF) are embedded over `ℝ`
with `Real.sqrt`.
-/

namespace SimplePathTracer

/-- 3-component vector, `glm::vec3` with an exact scalar type. -/
structure Vec3 (α : Type) where
  x : α
  y : α
  z : α
deriving DecidableEq, Repr

namespace Vec3

variable {α : Type}

instance [Add α] : Add (Vec3 α) := ⟨fun a b => ⟨a.x + b.x, a.y + b.y, a.z + b.z⟩⟩
instance [Sub α] : Sub (Vec3 α) := ⟨fun a b => ⟨a.x - b.x, a.y - b.y, a.z - b.z⟩⟩
instance [Neg α] : Neg (Vec3 α) := ⟨fun a => ⟨-a.x, -a.y, -a.z⟩⟩
/-- componentwise product, `glm`'s `vec * vec`. -/
instance [Mul α] : Mul (Vec3 α) := ⟨fun a b => ⟨a.x * b.x, a.y * b.y, a.z * b.z⟩⟩
/-- scalar * vector. -/
instance [Mul α] : SMul α (Vec3 α) := ⟨fun s v => ⟨s * v.x, s * v.y, s * v.z⟩⟩
instance [Zero α] : Zero (Vec3 α) := ⟨⟨0, 0, 0⟩⟩

/-- vector / scalar, componentwise. -/
def divs [Div α] (v : Vec3 α) (s : α) : Vec3 α := ⟨v.x / s, v.y / s, v.z / s⟩

/-- `glm::dot`. -/
def dot [Mul α] [Add α] (a b : Vec3 α) : α := a.x * b.x + a.y * b.y + a.z * b.z

/-- `glm::min`, componentwise. -/
def cmin [Min α] (a b : Vec3 α) : Vec3 α := ⟨min a.x b.x, min a.y b.y, min a.z b.z⟩

/-- `glm::max`, componentwise. -/
def cmax [Max α] (a b : Vec3 α) : Vec3 α := ⟨max a.x b.x, max a.y b.y, max a.z b.z⟩

/-- component access `v[i]` (0 ↦ x, 1 ↦ y, other ↦ z). -/
def get (v : Vec3 α) (i : ℕ) : α :=
  match i with
  | 0 => v.x
  | 1 => v.y
  | _ => v.z

/-- constant vector `Vec3(s)`. -/
def const (s : α) : Vec3 α := ⟨s, s, s⟩

end Vec3

/-- the constant `PI` of `Shader.hpp` (`3.1415926535898f`), kept exact. -/
def PI : ℚ := 3.1415926535898

/-- `Ray`: origin plus direction (not necessarily normalized). -/
structure Ray (α : Type) where
  origin : Vec3 α
  direction : Vec3 α
deriving DecidableEq, Repr

/-- point on a ray at parameter `t`: `origin + t * direction`. -/
def Ray.at [Mul α] [Add α] (r : Ray α) (t : α) : Vec3 α := r.origin + t • r.direction

/-- `Scattered`: the result of an indirect-bounce sample. -/
structure Scattered (α : Type) where
  ray : Ray α
  attenuation : Vec3 α
  emission : Vec3 α
  pdf : α
deriving Repr

/-! ## AABB (AABB.hpp), over ℚ -/

/-- exact value of the `FLT_MAX` constant used by the default `AABB`
constructor (`2^128 - 2^104`). -/
def FLT_MAX : ℚ := 340282346638528859811704183484516925440

/-- `AABB`: axis-aligned bounding box. -/
structure AABB where
  min : Vec3 ℚ
  max : Vec3 ℚ
deriving DecidableEq, Repr

namespace AABB

/-- the default constructor `AABB() : min(FLT_MAX), max(-FLT_MAX)`. -/
def empty : AABB := ⟨Vec3.const FLT_MAX, Vec3.const (-FLT_MAX)⟩

/-- `expand(const Vec3& point)`. -/
def expand (b : AABB) (p : Vec3 ℚ) : AABB :=
  ⟨Vec3.cmin b.min p, Vec3.cmax b.max p⟩

/-- `expand(const AABB& other)`. -/
def expandBox (b o : AABB) : AABB :=
  ⟨Vec3.cmin b.min o.min, Vec3.cmax b.max o.max⟩

/-- `center()`. -/
def center (b : AABB) : Vec3 ℚ := ((1 : ℚ) / 2) • (b.min + b.max)

/-- `surfaceArea()`. -/
def surfaceArea (b : AABB) : ℚ :=
  let d := b.max - b.min
  2 * (d.x * d.y + d.x * d.z + d.y * d.z)

/-- one iteration of the slab loop of `AABB::intersect`: returns the
tightened `(tMin, tMax)` window for one axis. -/
def slabAxis (mn mx o d tMin tMax : ℚ) : ℚ × ℚ :=
  let invD := 1 / d
  let t0 := (mn - o) * invD
  let t1 := (mx - o) * invD
  let p := if invD < 0 then (t1, t0) else (t0, t1)
  (if p.1 > tMin then p.1 else tMin, if p.2 < tMax then p.2 else tMax)

/-- `intersect(const Ray& ray, float tMin, float tMax)`: the classic slab
test, with the three axis iterations of the `for` loop unrolled. -/
def intersect (b : AABB) (ray : Ray ℚ) (tMin tMax : ℚ) : Bool :=
  let w0 := slabAxis b.min.x b.max.x ray.origin.x ray.direction.x tMin tMax
  if w0.2 ≤ w0.1 then false else
  let w1 := slabAxis b.min.y b.max.y ray.origin.y ray.direction.y w0.1 w0.2
  if w1.2 ≤ w1.1 then false else
  let w2 := slabAxis b.min.z b.max.z ray.origin.z ray.direction.z w1.1 w1.2
  if w2.2 ≤ w2.1 then false else true

/-- a point lies strictly inside a box (componentwise). -/
def strictInside (p : Vec3 ℚ) (b : AABB) : Prop :=
  b.min.x < p.x ∧ p.x < b.max.x ∧
  b.min.y < p.y ∧ p.y < b.max.y ∧
  b.min.z < p.z ∧ p.z < b.max.z

instance (p : Vec3 ℚ) (b : AABB) : Decidable (strictInside p b) := by
  unfold strictInside; infer_instance

/-- box `a` is contained in box `b`, componentwise. -/
def boxLE (a b : AABB) : Prop :=
  b.min.x ≤ a.min.x ∧ b.min.y ≤ a.min.y ∧ b.min.z ≤ a.min.z ∧
  a.max.x ≤ b.max.x ∧ a.max.y ≤ b.max.y ∧ a.max.z ≤ b.max.z

/-- boxes reachable from the default (empty) box by `expand` calls. -/
inductive Reachable : AABB → Prop
  | empty : Reachable AABB.empty
  | point (b : AABB) (p : Vec3 ℚ) : Reachable b → Reachable (b.expand p)
  | box (b o : AABB) : Reachable b → Reachable o → Reachable (b.expandBox o)

end AABB

/-! ## Scene primitives and the BVH (BVHNode.hpp, BVHBuilder.hpp), over ℚ -/

/-- `Triangle` (the geometric fields used by the BVH). -/
structure Triangle where
  v1 : Vec3 ℚ
  v2 : Vec3 ℚ
  v3 : Vec3 ℚ
deriving DecidableEq, Repr

/-- `Sphere` (the geometric fields used by the BVH). -/
structure Sphere where
  position : Vec3 ℚ
  radius : ℚ
deriving DecidableEq, Repr

/-- `Plane` (the geometric fields used by the BVH). -/
structure Plane where
  position : Vec3 ℚ
  normal : Vec3 ℚ
deriving DecidableEq, Repr

/-- the three primitive kinds a `BuildPrimitive` can point to (exactly one
of the `triangle` / `sphere` / `plane` pointers is set by `build`). -/
inductive PrimGeom where
  | tri (t : Triangle)
  | sph (s : Sphere)
  | pla (p : Plane)
deriving DecidableEq, Repr

/-- the exact rational rendering of the test
`std::abs(glm::normalize(pl.normal)[i]) > 0.9f` used by
`calculatePlaneBBox`: `|n_i| > 0.9 * length(n)` iff
`(10 * n_i)^2 > 81 * dot n n` (both sides of the float comparison are
nonnegative, so squaring is exact). -/
def planeAxisAligned (n : Vec3 ℚ) (ni : ℚ) : Bool :=
  decide (100 * ni * ni > 81 * Vec3.dot n n)

/-- `BVHBuilder::calculatePlaneBBox` (identical formula appears in
`BVHLeaf::calculateBBox`): a finite proxy box for the infinite plane,
thin (±0.1) along the axis most aligned with the normal, wide (±1000)
on the others. -/
def calculatePlaneBBox (pl : Plane) : AABB :=
  let largeValue : ℚ := 1000
  let c := pl.position
  let axisBounds : ℚ → ℚ → ℚ × ℚ := fun ci ni =>
    if planeAxisAligned pl.normal ni then (ci - 1/10, ci + 1/10)
    else (ci - largeValue, ci + largeValue)
  let bx := axisBounds c.x pl.normal.x
  let by' := axisBounds c.y pl.normal.y
  let bz := axisBounds c.z pl.normal.z
  ⟨⟨bx.1, by'.1, bz.1⟩, ⟨bx.2, by'.2, bz.2⟩⟩

/-- `BVHBuilder::calculateTriangleBBox`. -/
def calculateTriangleBBox (t : Triangle) : AABB :=
  ((AABB.empty.expand t.v1).expand t.v2).expand t.v3

/-- `BVHBuilder::calculateSphereBBox` (direct assignment of
`position ± radius`). -/
def calculateSphereBBox (s : Sphere) : AABB :=
  ⟨s.position - Vec3.const s.radius, s.position + Vec3.const s.radius⟩

/-- per-kind bounding box as computed by the builder. -/
def calcBBox : PrimGeom → AABB
  | .tri t => calculateTriangleBBox t
  | .sph s => calculateSphereBBox s
  | .pla p => calculatePlaneBBox p

/-- `BVHBuilder::BuildPrimitive`: one scene primitive together with its
precomputed bounding box and centroid.  The `id` tracks the primitive's
index in the scene buffers (triangles, then spheres, then planes), so
that the abstract intersection oracle can refer to it. -/
structure BuildPrimitive where
  id : ℕ
  geom : PrimGeom
  bbox : AABB
  center : Vec3 ℚ
deriving DecidableEq, Repr

/-- the primitive-collection phase of `BVHBuilder::build`: wrap every
triangle, sphere and plane of the scene (in buffer order) as a
`BuildPrimitive`. -/
def mkBuildList (tris : List Triangle) (sphs : List Sphere) (plas : List Plane) :
    List BuildPrimitive :=
  let gs := tris.map PrimGeom.tri ++ sphs.map PrimGeom.sph ++ plas.map PrimGeom.pla
  (List.range gs.length).zip gs |>.map fun ig =>
    { id := ig.1, geom := ig.2, bbox := calcBBox ig.2, center := (calcBBox ig.2).center }

def PrimGeom.isTri : PrimGeom → Bool
  | .tri _ => true
  | _ => false

def PrimGeom.isSph : PrimGeom → Bool
  | .sph _ => true
  | _ => false

def PrimGeom.isPla : PrimGeom → Bool
  | .pla _ => true
  | _ => false

/-- the BVH node hierarchy: `BVHLeaf` holds (copies of) the primitives of
its range, partitioned back into triangle/sphere/plane groups;
`BVHInternal` holds the two child ownerships (either of which may be
null).  Each node carries the bounding box computed by its constructor. -/
inductive BVHNode where
  | leaf (triangles spheres planes : List BuildPrimitive) (bbox : AABB)
  | internal (left right : Option BVHNode) (bbox : AABB)
deriving Repr

/-- the bounding-box field of a node. -/
def BVHNode.bbox : BVHNode → AABB
  | .leaf _ _ _ b => b
  | .internal _ _ b => b

/-- the triangle iteration of `BVHLeaf::calculateBBox`: expand by the
three vertices. -/
def leafStepTri (b : AABB) (p : BuildPrimitive) : AABB :=
  match p.geom with
  | .tri t => ((b.expand t.v1).expand t.v2).expand t.v3
  | _ => b

/-- the sphere iteration of `BVHLeaf::calculateBBox`: expand by
`position - radius` and `position + radius`. -/
def leafStepSph (b : AABB) (p : BuildPrimitive) : AABB :=
  match p.geom with
  | .sph s => (b.expand (s.position - Vec3.const s.radius)).expand
      (s.position + Vec3.const s.radius)
  | _ => b

/-- the plane iteration of `BVHLeaf::calculateBBox`: expand by the
plane's finite proxy box. -/
def leafStepPla (b : AABB) (p : BuildPrimitive) : AABB :=
  match p.geom with
  | .pla pl => b.expandBox (calculatePlaneBBox pl)
  | _ => b

/-- `BVHLeaf::calculateBBox`: union of the owned primitives' bounds
(triangle: its 3 vertices; sphere: `position ± radius`; plane: the
finite proxy box). -/
def leafCalcBBox (ts ss ps : List BuildPrimitive) : AABB :=
  ps.foldl leafStepPla (ss.foldl leafStepSph (ts.foldl leafStepTri AABB.empty))

/-- the `BVHLeaf` constructor: partition the range back into the three
kind groups and recompute the bounds. -/
def mkLeaf (l : List BuildPrimitive) : BVHNode :=
  let ts := l.filter (fun p => p.geom.isTri)
  let ss := l.filter (fun p => p.geom.isSph)
  let ps := l.filter (fun p => p.geom.isPla)
  .leaf ts ss ps (leafCalcBBox ts ss ps)

/-- the `BVHInternal` constructor: merge the children's boxes (copy the
single child's box when the other is null; keep the default box when
both are null). -/
def mkInternal (l r : Option BVHNode) : BVHNode :=
  match l, r with
  | some nl, some nr =>
      .internal (some nl) (some nr)
        ⟨Vec3.cmin nl.bbox.min nr.bbox.min, Vec3.cmax nl.bbox.max nr.bbox.max⟩
  | some nl, none => .internal (some nl) none nl.bbox
  | none, some nr => .internal none (some nr) nr.bbox
  | none, none => .internal none none AABB.empty

/-- insertion of one element into a list sorted by `key` (ascending). -/
def insertSorted (key : BuildPrimitive → ℚ) (p : BuildPrimitive) :
    List BuildPrimitive → List BuildPrimitive
  | [] => [p]
  | q :: qs => if key p ≤ key q then p :: q :: qs else q :: insertSorted key p qs

/-- sorting by `key`: models the `std::sort` call on the active range
(the comparator is `center[axis] <`; any order consistent with the key
is observationally equivalent for the built tree's semantics). -/
def sortByKey (key : BuildPrimitive → ℚ) : List BuildPrimitive → List BuildPrimitive
  | [] => []
  | p :: ps => insertSorted key p (sortByKey key ps)

/-- the split-axis choice of `recursiveBuild`: the axis of largest
centroid-bounds extent, compared as `x` vs `y` first, the winner vs
`z` (strict `>` comparisons). -/
def chooseAxis (cb : AABB) : ℕ :=
  let axis : ℕ := if cb.max.x - cb.min.x > cb.max.y - cb.min.y then 0 else 1
  if (cb.max.get axis) - (cb.min.get axis) > cb.max.z - cb.min.z then axis else 2

/-- `Vec3.get` lifted to a box corner. -/
def AABB.minGet (b : AABB) (i : ℕ) : ℚ := b.min.get i

/-- the split phase of `recursiveBuild` (steps 3-4 of the algorithm):
compute the centroid bounding box, choose the longest axis, sort the
active range by centroid coordinate along it, and split at the midpoint
index `start + (end - start) / 2`. -/
def splitLists (l : List BuildPrimitive) : List BuildPrimitive × List BuildPrimitive :=
  let centroidBounds := l.foldl (fun b p => b.expand p.center) AABB.empty
  let axis := chooseAxis centroidBounds
  let sorted := sortByKey (fun p => p.center.get axis) l
  let mid := l.length / 2
  (sorted.take mid, sorted.drop mid)

/-- `BVHBuilder::recursiveBuild`, on an explicit list (the active
`[start, end)` range of the C++ array) with a structural fuel so the
definition reduces; `recursiveBuild` below instantiates the fuel with
the list length, which the termination argument of the C++ recursion
shows is always sufficient. -/
def recursiveBuildF : ℕ → List BuildPrimitive → Option BVHNode
  | _, [] => none
  | 0, _ :: _ => none
  | fuel + 1, q :: qs =>
      if (q :: qs).length ≤ 4 then some (mkLeaf (q :: qs))
      else
        some (mkInternal (recursiveBuildF fuel (splitLists (q :: qs)).1)
                         (recursiveBuildF fuel (splitLists (q :: qs)).2))

/-- `BVHBuilder::recursiveBuild` on the full range. -/
def recursiveBuild (l : List BuildPrimitive) : Option BVHNode :=
  recursiveBuildF l.length l

/-- `BVHBuilder::build`. -/
def build (tris : List Triangle) (sphs : List Sphere) (plas : List Plane) :
    Option BVHNode :=
  recursiveBuild (mkBuildList tris sphs plas)

/-! ### Traversal

The exact ray/primitive intersection routines (`Intersection::xTriangle`,
`Intersection::xSphere`, `Intersection::xPlane`) are external
collaborators that are not part of this repository's sources.  Following
the spec, each primitive's interaction with the fixed query ray is
abstracted as a finite list of candidate hit parameters (`cands id`),
and the routine returns the nearest candidate inside the query window. -/

/-- smallest element of a list of rationals. -/
def minQ : List ℚ → Option ℚ
  | [] => none
  | t :: ts =>
      match minQ ts with
      | none => some t
      | some u => some (if t ≤ u then t else u)

/-- Modelled from the spec: the external ray/primitive intersection
routine (`Intersection::xTriangle` / `xSphere` / `xPlane`, provided
collaborators absent from the sources).  Per the spec, among candidate
hits "the record with smallest non-negative `t` within `[tMin, tMax]`
wins": the routine returns the smallest candidate parameter of the
primitive inside the closed query window, or a miss. -/
def xHit (cs : List ℚ) (tMin tMax : ℚ) : Option ℚ :=
  minQ (cs.filter fun t => decide (tMin ≤ t) && decide (t ≤ tMax))

/-- the shared loop body of `BVHLeaf::intersect` (and of brute force):
query one primitive against the shrinking `(closest, closestHit)`
state, replacing the best hit when the new hit is strictly nearer. -/
def scanStep (cands : ℕ → List ℚ) (tMin : ℚ) (acc : ℚ × Option (ℕ × ℚ))
    (p : BuildPrimitive) : ℚ × Option (ℕ × ℚ) :=
  match xHit (cands p.id) tMin acc.1 with
  | some t => if t < acc.1 then (t, some (p.id, t)) else acc
  | none => acc

/-- fold the scan over a primitive list, starting from
`closest = tMax, closestHit = miss`. -/
def scanBest (cands : ℕ → List ℚ) (ps : List BuildPrimitive) (tMin tMax : ℚ) :
    Option (ℕ × ℚ) :=
  (ps.foldl (scanStep cands tMin) (tMax, none)).2

/-- brute-force testing of the ray against every primitive in the scene,
in buffer order (triangles, then spheres, then planes), shrinking the
valid window as better hits are found. -/
def bruteForce (cands : ℕ → List ℚ) (ps : List BuildPrimitive) (tMin tMax : ℚ) :
    Option (ℕ × ℚ) :=
  scanBest cands ps tMin tMax

/-- the hit-selection match at the end of `BVHInternal::intersect`:
return the nearer of the two child hits (`leftHit->t < rightHit->t ?
leftHit : rightHit`), the single hit, or miss. -/
def combineHits : Option (ℕ × ℚ) → Option (ℕ × ℚ) → Option (ℕ × ℚ)
  | some lh, some rh => if lh.2 < rh.2 then some lh else some rh
  | some lh, none => some lh
  | none, some rh => some rh
  | none, none => none

/-- `BVHNode::intersect` (leaf and internal cases): a leaf brute-forces
its owned triangles, spheres and planes in that order; an internal node
first rejects via its own box's slab test, then recurses into the
existing children with the same window and returns the nearer child
hit. -/
def BVHNode.intersect (cands : ℕ → List ℚ) (ray : Ray ℚ) :
    BVHNode → ℚ → ℚ → Option (ℕ × ℚ)
  | .leaf ts ss ps _, tMin, tMax => scanBest cands (ts ++ ss ++ ps) tMin tMax
  | .internal l r bbox, tMin, tMax =>
      if bbox.intersect ray tMin tMax = false then none
      else
        combineHits
          (match l with
            | some n => n.intersect cands ray tMin tMax
            | none => none)
          (match r with
            | some n => n.intersect cands ray tMin tMax
            | none => none)

/-- intersection against the (possibly null) root returned by the
builder: a null root is a miss. -/
def rootIntersect (cands : ℕ → List ℚ) (ray : Ray ℚ) (root : Option BVHNode)
    (tMin tMax : ℚ) : Option (ℕ × ℚ) :=
  match root with
  | some n => n.intersect cands ray tMin tMax
  | none => none

/-- the multiset of primitives owned by (the subtree of) a node. -/
def BVHNode.prims : BVHNode → List BuildPrimitive
  | .leaf ts ss ps _ => ts ++ ss ++ ps
  | .internal l r _ =>
      (match l with | some n => n.prims | none => []) ++
      (match r with | some n => n.prims | none => [])

/-- structural well-formedness of a built tree: every leaf holds between
1 and 4 primitives in total, every internal node has both children
present and well-formed. -/
def treeWF : BVHNode → Bool
  | .leaf ts ss ps _ =>
      decide (1 ≤ ts.length + ss.length + ps.length) &&
      decide (ts.length + ss.length + ps.length ≤ 4)
  | .internal (some l) (some r) _ => treeWF l && treeWF r
  | .internal _ _ _ => false

/-! ### Specification predicates for the traversal/brute-force
equivalence -/

/-- a hit parameter lies in the effective query window: at or beyond
`tMin`, strictly nearer than the running `closest` (which starts at
`tMax` — a hit exactly at `closest` is never recorded, because the
scan's replacement test is strict). -/
def inWin (tMin tMax t : ℚ) : Prop := tMin ≤ t ∧ t < tMax

instance (tMin tMax t : ℚ) : Decidable (inWin tMin tMax t) := by
  unfold inWin; infer_instance

/-- no primitive of the list has a candidate hit in the window. -/
def NoCand (cands : ℕ → List ℚ) (ps : List BuildPrimitive) (tMin tMax : ℚ) : Prop :=
  ∀ p ∈ ps, ∀ t ∈ cands p.id, ¬ inWin tMin tMax t

/-- the pair `(i, t)` is a genuine hit of some listed primitive in the
window. -/
def Attains (cands : ℕ → List ℚ) (ps : List BuildPrimitive) (tMin tMax : ℚ)
    (i : ℕ) (t : ℚ) : Prop :=
  ∃ p ∈ ps, p.id = i ∧ t ∈ cands p.id ∧ inWin tMin tMax t

/-- `t` is a lower bound of every candidate hit of the list in the
window. -/
def LowerBound (cands : ℕ → List ℚ) (ps : List BuildPrimitive) (tMin tMax : ℚ)
    (t : ℚ) : Prop :=
  ∀ p ∈ ps, ∀ u ∈ cands p.id, inWin tMin tMax u → t ≤ u

/-- the nearest-hit specification of an intersection result over a
primitive list: a miss means no candidate is in the window; a hit is a
genuine candidate of a listed primitive that is minimal in the
window. -/
def IsBest (cands : ℕ → List ℚ) (ps : List BuildPrimitive) (tMin tMax : ℚ) :
    Option (ℕ × ℚ) → Prop
  | none => NoCand cands ps tMin tMax
  | some it => Attains cands ps tMin tMax it.1 it.2 ∧ LowerBound cands ps tMin tMax it.2

/-- loop invariant of the scan over primitives: the running
`(closest, closestHit)` pair is the nearest-hit state of the prefix
already processed. -/
def ScanInv (cands : ℕ → List ℚ) (done : List BuildPrimitive) (tMin tMax : ℚ) :
    ℚ × Option (ℕ × ℚ) → Prop
  | (c, none) => c = tMax ∧ NoCand cands done tMin tMax
  | (c, some it) => c = it.2 ∧ Attains cands done tMin tMax it.1 it.2 ∧
      LowerBound cands done tMin tMax it.2

/-- intermediate boxes of the leaf bound fold stay below `FLT_MAX` /
above `-FLT_MAX` componentwise (true of the default box and preserved
by expansion). -/
def accOK (b : AABB) : Prop :=
  b.min.x ≤ FLT_MAX ∧ b.min.y ≤ FLT_MAX ∧ b.min.z ≤ FLT_MAX ∧
  -FLT_MAX ≤ b.max.x ∧ -FLT_MAX ≤ b.max.y ∧ -FLT_MAX ≤ b.max.z

/-! ## Lambertian (Lambertian.cpp), over ℚ -/

/-- `AreaLight`: position, two edge vectors and radiance. -/
structure AreaLight (α : Type) where
  position : Vec3 α
  u : Vec3 α
  v : Vec3 α
  radiance : Vec3 α
deriving Repr

/-- the `Lambertian` shader's constructor-resolved state. -/
structure Lambertian where
  albedo : Vec3 ℚ
deriving Repr

/-- `Lambertian::shade`.  The scattered direction is
`glm::normalize(onb.local(random))` where `random` comes from the
hemisphere sampler and `Onb` builds the local frame — both external
collaborators absent from the sources; the composite sampled direction
enters the embedding as the `direction` argument.  The attenuation, pdf
and emission fields do not depend on it. -/
def Lambertian.shade (sh : Lambertian) (_ray : Ray ℚ) (hitPoint : Vec3 ℚ)
    (_normal : Vec3 ℚ) (direction : Vec3 ℚ) : Scattered ℚ :=
  { ray := ⟨hitPoint, direction⟩
    attenuation := sh.albedo.divs PI
    emission := 0
    pdf := 1 / (2 * PI) }

/-- `Lambertian::evaluateDirectLighting`. -/
def Lambertian.evaluateDirectLighting (sh : Lambertian) (_ray : Ray ℚ)
    (_hitPoint normal : Vec3 ℚ) (light : AreaLight ℚ) (lightDir : Vec3 ℚ)
    (lightDistance : ℚ) : Vec3 ℚ :=
  let brdf := sh.albedo.divs PI
  let cosTheta := max 0 (Vec3.dot normal lightDir)
  let attenuation := 1 / (lightDistance * lightDistance)
  attenuation • (cosTheta • (brdf * light.radiance))

/-- `Lambertian::getBRDF`. -/
def Lambertian.getBRDF (sh : Lambertian) (_wi _wo _normal : Vec3 ℚ) : Vec3 ℚ :=
  sh.albedo.divs PI

/-! ## Real-valued shader embeddings

`Metal`, `Dielectric` and `DisneyBRDF` call `glm::normalize` /
`std::sqrt`, so they are embedded over `ℝ` with `Real.sqrt`. -/

/-- `glm::normalize`: `v / length(v)` componentwise. -/
noncomputable def normalizeR (v : Vec3 ℝ) : Vec3 ℝ :=
  v.divs (Real.sqrt (Vec3.dot v v))

/-- `glm::mix(x, y, a)` on scalars: `x * (1 - a) + y * a`. -/
def mixR (x y a : ℝ) : ℝ := x * (1 - a) + y * a

/-- `glm::mix(x, y, a)` on vectors, componentwise. -/
def mixV (x y : Vec3 ℝ) (a : ℝ) : Vec3 ℝ := ((1 - a) • x) + (a • y)

/-! ### Metal (Metal.hpp) -/

/-- the `Metal` shader's constructor-resolved state (`albedo`, clamped
`roughness`). -/
structure Metal where
  albedo : Vec3 ℝ
  roughness : ℝ

namespace Metal

/-- `Metal::reflect`. -/
def reflect (v n : Vec3 ℝ) : Vec3 ℝ := v - (2 * Vec3.dot v n) • n

/-- `Metal::perturbDirection`: below the roughness threshold return the
perfect reflection; otherwise blend the perfect reflection with the
perturbed direction by roughness and renormalize.  The perturbed
direction is `glm::normalize(onb.local(random))` with the sampler and
`Onb` external; the raw `onb.local(random)` value enters as
`sampleLocal`. -/
noncomputable def perturbDirection (m : Metal) (perfectReflect sampleLocal : Vec3 ℝ) :
    Vec3 ℝ :=
  if m.roughness < 0.001 then perfectReflect
  else
    let perturbed := normalizeR sampleLocal
    normalizeR (mixV perfectReflect perturbed m.roughness)

/-- `Metal::shade`. -/
noncomputable def shade (m : Metal) (ray : Ray ℝ) (hitPoint normal : Vec3 ℝ)
    (sampleLocal : Vec3 ℝ) : Scattered ℝ :=
  let incident := normalizeR ray.direction
  let perfectReflectDir := reflect incident normal
  let finalDirection0 := m.perturbDirection perfectReflectDir sampleLocal
  let finalDirection :=
    if Vec3.dot finalDirection0 normal < 0 then perfectReflectDir else finalDirection0
  { ray := ⟨hitPoint, finalDirection⟩
    attenuation := m.albedo
    emission := 0
    pdf := 1 }

end Metal

/-! ### Dielectric (the final version of Dielectric.hpp, with the
Schlick `fresnel(cosThetaI, etaI, etaT)` helper) -/

/-- the `Dielectric` shader's constructor-resolved state. -/
structure Dielectric where
  refractiveIndex : ℝ
  attenuation : Vec3 ℝ

namespace Dielectric

/-- `Dielectric::fresnel`: total-internal-reflection test on the
transmitted sine, then the Schlick approximation.  (The source also
computes `cosThetaT`, which is unused.) -/
noncomputable def fresnel (cosThetaI etaI etaT : ℝ) : ℝ :=
  let sinThetaI := Real.sqrt (max 0 (1 - cosThetaI * cosThetaI))
  let sinThetaT := etaI / etaT * sinThetaI
  if sinThetaT ≥ 1 then 1
  else
    let R0 := ((etaI - etaT) / (etaI + etaT)) * ((etaI - etaT) / (etaI + etaT))
    R0 + (1 - R0) * (1 - cosThetaI) ^ (5 : ℕ)

/-- `Dielectric::reflect`. -/
def reflect (v n : Vec3 ℝ) : Vec3 ℝ := v - (2 * Vec3.dot v n) • n

/-- `Dielectric::refract`: refraction direction by the discriminant
test; the zero vector signals total internal reflection. -/
noncomputable def refract (v n : Vec3 ℝ) (eta : ℝ) : Vec3 ℝ :=
  let uv := normalizeR v
  let dt := Vec3.dot uv n
  let discriminant := 1 - eta * eta * (1 - dt * dt)
  if discriminant > 0 then (eta • (uv - dt • n)) - Real.sqrt discriminant • n
  else 0

/-- the outgoing direction `wo = -glm::normalize(ray.direction)` of
`Dielectric::shade`. -/
noncomputable def wo (ray : Ray ℝ) : Vec3 ℝ := -(normalizeR ray.direction)

/-- the flipped working normal of `Dielectric::shade`. -/
noncomputable def normalCorrected (ray : Ray ℝ) (normal : Vec3 ℝ) : Vec3 ℝ :=
  if Vec3.dot (wo ray) normal > 0 then normal else -normal

/-- the index-of-refraction ratio `etaI / etaT` used by
`Dielectric::shade` after the entering/exiting swap. -/
noncomputable def etaRatio (d : Dielectric) (ray : Ray ℝ) (normal : Vec3 ℝ) : ℝ :=
  if Vec3.dot (wo ray) normal > 0 then 1 / d.refractiveIndex else d.refractiveIndex / 1

/-- the discriminant `1 - eta^2 * (1 - dt^2)` computed inside
`Dielectric::refract` when `Dielectric::shade` asks for the refraction
of `wo` about the corrected normal. -/
noncomputable def refractionDiscriminant (d : Dielectric) (ray : Ray ℝ)
    (normal : Vec3 ℝ) : ℝ :=
  let uv := normalizeR (wo ray)
  let dt := Vec3.dot uv (normalCorrected ray normal)
  1 - etaRatio d ray normal * etaRatio d ray normal * (1 - dt * dt)

/-- `Dielectric::shade` (Fresnel importance sampling).  The uniform
sampler draw `defaultSamplerInstance<UniformSampler>().sample1d()`
enters the embedding as `random`.  The triple `wpr` holds the mutable
`(wi, pdf, reflectProb)` state after the sampling branch (the source
overwrites `reflectProb` with 1 on total internal reflection before the
attenuation computation reads it again). -/
noncomputable def shade (d : Dielectric) (random : ℝ) (ray : Ray ℝ)
    (hitPoint normal : Vec3 ℝ) : Scattered ℝ :=
  let wov := wo ray
  let fromOutside := Vec3.dot wov normal > 0
  let etaI : ℝ := if fromOutside then 1 else d.refractiveIndex
  let etaT : ℝ := if fromOutside then d.refractiveIndex else 1
  let nc := normalCorrected ray normal
  let cosThetaI := |Vec3.dot wov nc|
  let reflectProb := fresnel cosThetaI etaI etaT
  let wpr : Vec3 ℝ × ℝ × ℝ :=
    if random < reflectProb then (reflect wov nc, reflectProb, reflectProb)
    else
      let wi := refract wov nc (etaI / etaT)
      if wi = 0 then (reflect wov nc, 1, 1)
      else (wi, 1 - reflectProb, reflectProb)
  let wi := wpr.1
  let pdf := wpr.2.1
  let reflectProb2 := wpr.2.2
  let albedo :=
    if random < reflectProb2 then reflectProb2 • d.attenuation
    else
      let eta := etaI / etaT
      ((1 - reflectProb2) * (eta * eta)) • d.attenuation
  let offset0 := (0.001 : ℝ) • nc
  let offset := if Vec3.dot wi nc < 0 then -offset0 else offset0
  { ray := ⟨hitPoint + offset, normalizeR wi⟩
    attenuation := albedo
    emission := 0
    pdf := pdf }

end Dielectric

/-! ### DisneyBRDF (Shader.hpp, class DisneyBRDF) -/

/-- the `DisneyBRDF` shader's constructor-resolved state. -/
structure DisneyBRDF where
  baseColor : Vec3 ℝ
  metallic : ℝ
  roughness : ℝ
  subsurface : ℝ
  specular : ℝ
  specularTint : ℝ
  anisotropic : ℝ
  sheen : ℝ
  sheenTint : ℝ
  clearcoat : ℝ
  clearcoatGloss : ℝ

namespace DisneyBRDF

/-- `DisneyBRDF::shouldFallbackToLambertian`: the exact-equality guard
`metallic == 0.0f && roughness == 0.8f`. -/
noncomputable def shouldFallbackToLambertian (s : DisneyBRDF) : Bool :=
  decide (s.metallic = 0 ∧ s.roughness = 0.8)

/-- `DisneyBRDF::evalDiffuseTerm` (retro-reflection/subsurface blend). -/
noncomputable def evalDiffuseTerm (s : DisneyBRDF) (NdotL NdotV LdotH : ℝ) : Vec3 ℝ :=
  let Fss90 := LdotH * LdotH * s.roughness
  let Fss := (1 / (NdotL * NdotV) - 0.5) * Fss90 + 0.5
  let ss := 1.25 * (Fss * (1 / (NdotL + NdotV) - 0.5) + 0.5)
  let FD90 := 0.5 + 2 * LdotH * LdotH * s.roughness
  let FdV := 1 + (FD90 - 1) * (1 - NdotV) ^ (5 : ℕ)
  let FdL := 1 + (FD90 - 1) * (1 - NdotL) ^ (5 : ℕ)
  let diffuse := (FdV * FdL) / (PI : ℝ)
  Vec3.const (mixR diffuse ss s.subsurface)

/-- `DisneyBRDF::evalSpecularTerm` (GGX microfacet lobe). -/
noncomputable def evalSpecularTerm (s : DisneyBRDF) (NdotL NdotV NdotH LdotH : ℝ) :
    Vec3 ℝ :=
  let alpha := s.roughness * s.roughness
  let alpha2 := alpha * alpha
  let Ddenom := NdotH * NdotH * (alpha2 - 1) + 1
  let D := alpha2 / ((PI : ℝ) * Ddenom * Ddenom)
  let G1V := NdotV + Real.sqrt (alpha2 + (1 - alpha2) * NdotV * NdotV)
  let G1L := NdotL + Real.sqrt (alpha2 + (1 - alpha2) * NdotL * NdotL)
  let G := 1 / (G1V * G1L)
  let F0 := mixV (Vec3.const (0.04 * s.specular)) s.baseColor s.metallic
  let F := F0 + (1 - LdotH) ^ (5 : ℕ) • (Vec3.const 1 - F0)
  let F2 :=
    if s.specularTint > 0 then
      let tint := s.baseColor.divs (s.baseColor.x + s.baseColor.y + s.baseColor.z + 0.001)
      mixV F (F * tint) s.specularTint
    else F
  ((D * G) • F2).divs (4 * NdotL * NdotV)

/-- `DisneyBRDF::evalClearcoatTerm` (fixed-IOR clearcoat lobe). -/
noncomputable def evalClearcoatTerm (s : DisneyBRDF) (NdotL NdotV NdotH LdotH : ℝ) :
    Vec3 ℝ :=
  if s.clearcoat ≤ 0 then 0
  else
    let alpha := mixR 0.1 0.001 s.clearcoatGloss
    let alpha2 := alpha * alpha
    let D := alpha2 / ((PI : ℝ) * (NdotH * NdotH * (alpha2 - 1) + 1) ^ (2 : ℕ))
    let GV := 1 / (NdotV + Real.sqrt (alpha2 + (1 - alpha2) * NdotV * NdotV))
    let GLt := 1 / (NdotL + Real.sqrt (alpha2 + (1 - alpha2) * NdotL * NdotL))
    let G := GV * GLt
    let F := Vec3.const (0.04 : ℝ) +
      (1 - LdotH) ^ (5 : ℕ) • (Vec3.const (1 : ℝ) - Vec3.const (0.04 : ℝ))
    ((s.clearcoat * D * G) • F).divs (4 * NdotL * NdotV)

/-- `DisneyBRDF::evalSheenTerm` (Schlick-power edge tint). -/
noncomputable def evalSheenTerm (s : DisneyBRDF) (LdotH : ℝ) : Vec3 ℝ :=
  if s.sheen ≤ 0 then 0
  else
    let sheenColor := mixV (Vec3.const 1) s.baseColor s.sheenTint
    (s.sheen * (1 - LdotH) ^ (5 : ℕ)) • sheenColor

/-- `DisneyBRDF::evaluateBRDF`: the Lambertian fallback shortcut, then
the weighted sum of the diffuse, specular, clearcoat and sheen lobes
scaled by the base color. -/
noncomputable def evaluateBRDF (s : DisneyBRDF) (wi wov normal : Vec3 ℝ) : Vec3 ℝ :=
  if s.shouldFallbackToLambertian then s.baseColor.divs (PI : ℝ)
  else
    let h := normalizeR (wi + wov)
    let NdotL := max 0 (Vec3.dot normal wi)
    let NdotV := max 0 (Vec3.dot normal wov)
    let NdotH := max 0 (Vec3.dot normal h)
    let LdotH := max 0 (Vec3.dot wi h)
    if NdotL ≤ 0 ∨ NdotV ≤ 0 then 0
    else
      let diffuse := s.evalDiffuseTerm NdotL NdotV LdotH
      let specular := s.evalSpecularTerm NdotL NdotV NdotH LdotH
      let clearcoatTerm := s.evalClearcoatTerm NdotL NdotV NdotH LdotH
      let sheenTerm := s.evalSheenTerm LdotH
      let result :=
        (1 - s.metallic) • diffuse + specular + (1 - s.metallic) • sheenTerm + clearcoatTerm
      result * s.baseColor

/-- `DisneyBRDF::getBRDF`. -/
noncomputable def getBRDF (s : DisneyBRDF) (wi wov normal : Vec3 ℝ) : Vec3 ℝ :=
  s.evaluateBRDF wi wov normal

end DisneyBRDF

/-! ## Concrete instances used in the analysis -/

/-- five coplanar axis-aligned triangles in the plane `z = 0`:
triangle `i` spans `[i, i+1] × [0, 1] × {0}`. -/
def flatTris : List Triangle :=
  [⟨⟨0, 0, 0⟩, ⟨1, 1, 0⟩, ⟨0, 1, 0⟩⟩,
   ⟨⟨1, 0, 0⟩, ⟨2, 1, 0⟩, ⟨1, 1, 0⟩⟩,
   ⟨⟨2, 0, 0⟩, ⟨3, 1, 0⟩, ⟨2, 1, 0⟩⟩,
   ⟨⟨3, 0, 0⟩, ⟨4, 1, 0⟩, ⟨3, 1, 0⟩⟩,
   ⟨⟨4, 0, 0⟩, ⟨5, 1, 0⟩, ⟨4, 1, 0⟩⟩]

/-- the intersection oracle for `flatRay` against `flatTris`: the ray
meets triangle 0 (only) at parameter 1, at the point `(0.3, 0.6, 0)`
inside that triangle. -/
def flatCands : ℕ → List ℚ := fun i => if i = 0 then [1] else []

/-- a query ray with all direction components nonzero that hits
triangle 0 of `flatTris` at `t = 1`. -/
def flatRay : Ray ℚ := ⟨⟨1/5, 1/2, -1⟩, ⟨1/10, 1/10, 1⟩⟩

/-- five triangles with genuine 3-D extent: triangle `i` has vertices
`(i,0,0)`, `(i+1,1,0)`, `(i,1,1)`. -/
def boxTris : List Triangle :=
  [⟨⟨0, 0, 0⟩, ⟨1, 1, 0⟩, ⟨0, 1, 1⟩⟩,
   ⟨⟨1, 0, 0⟩, ⟨2, 1, 0⟩, ⟨1, 1, 1⟩⟩,
   ⟨⟨2, 0, 0⟩, ⟨3, 1, 0⟩, ⟨2, 1, 1⟩⟩,
   ⟨⟨3, 0, 0⟩, ⟨4, 1, 0⟩, ⟨3, 1, 1⟩⟩,
   ⟨⟨4, 0, 0⟩, ⟨5, 1, 0⟩, ⟨4, 1, 1⟩⟩]

/-- the intersection oracle for `boxRay` against `boxTris`: the ray
meets triangle 0 (only) at parameter `3/2`, strictly inside that
triangle's bounding box. -/
def boxCands : ℕ → List ℚ := fun i => if i = 0 then [3/2] else []

/-- a query ray with all direction components nonzero that hits
triangle 0 of `boxTris` at `t = 3/2`. -/
def boxRay : Ray ℚ := ⟨⟨1/2, 1/2, -1⟩, ⟨1/100, 1/100, 1⟩⟩

/-- a `DisneyBRDF` state with `metallic = 0` and `roughness = 0.8`
(every other parameter at its constructor default). -/
noncomputable def exampleDisney : DisneyBRDF :=
  ⟨⟨1, 1, 1⟩, 0, 0.8, 0, 0.5, 0, 0, 0, 0.5, 0, 1⟩

/-! # Theorems -/

namespace Vec3

variable {α : Type}

@[simp] theorem add_x [Add α] (a b : Vec3 α) : (a + b).x = a.x + b.x := rfl
@[simp] theorem add_y [Add α] (a b : Vec3 α) : (a + b).y = a.y + b.y := rfl
@[simp] theorem add_z [Add α] (a b : Vec3 α) : (a + b).z = a.z + b.z := rfl
@[simp] theorem sub_x [Sub α] (a b : Vec3 α) : (a - b).x = a.x - b.x := rfl
@[simp] theorem sub_y [Sub α] (a b : Vec3 α) : (a - b).y = a.y - b.y := rfl
@[simp] theorem sub_z [Sub α] (a b : Vec3 α) : (a - b).z = a.z - b.z := rfl
@[simp] theorem neg_x [Neg α] (a : Vec3 α) : (-a).x = -a.x := rfl
@[simp] theorem neg_y [Neg α] (a : Vec3 α) : (-a).y = -a.y := rfl
@[simp] theorem neg_z [Neg α] (a : Vec3 α) : (-a).z = -a.z := rfl
@[simp] theorem mul_x [Mul α] (a b : Vec3 α) : (a * b).x = a.x * b.x := rfl
@[simp] theorem mul_y [Mul α] (a b : Vec3 α) : (a * b).y = a.y * b.y := rfl
@[simp] theorem mul_z [Mul α] (a b : Vec3 α) : (a * b).z = a.z * b.z := rfl
@[simp] theorem smul_x [Mul α] (s : α) (a : Vec3 α) : (s • a).x = s * a.x := rfl
@[simp] theorem smul_y [Mul α] (s : α) (a : Vec3 α) : (s • a).y = s * a.y := rfl
@[simp] theorem smul_z [Mul α] (s : α) (a : Vec3 α) : (s • a).z = s * a.z := rfl
@[simp] theorem divs_x [Div α] (a : Vec3 α) (s : α) : (a.divs s).x = a.x / s := rfl
@[simp] theorem divs_y [Div α] (a : Vec3 α) (s : α) : (a.divs s).y = a.y / s := rfl
@[simp] theorem divs_z [Div α] (a : Vec3 α) (s : α) : (a.divs s).z = a.z / s := rfl
@[simp] theorem zero_x [Zero α] : (0 : Vec3 α).x = 0 := rfl
@[simp] theorem zero_y [Zero α] : (0 : Vec3 α).y = 0 := rfl
@[simp] theorem zero_z [Zero α] : (0 : Vec3 α).z = 0 := rfl
@[simp] theorem const_x (s : α) : (const s).x = s := rfl
@[simp] theorem const_y (s : α) : (const s).y = s := rfl
@[simp] theorem const_z (s : α) : (const s).z = s := rfl
@[simp] theorem cmin_x [Min α] (a b : Vec3 α) : (cmin a b).x = min a.x b.x := rfl
@[simp] theorem cmin_y [Min α] (a b : Vec3 α) : (cmin a b).y = min a.y b.y := rfl
@[simp] theorem cmin_z [Min α] (a b : Vec3 α) : (cmin a b).z = min a.z b.z := rfl
@[simp] theorem cmax_x [Max α] (a b : Vec3 α) : (cmax a b).x = max a.x b.x := rfl
@[simp] theorem cmax_y [Max α] (a b : Vec3 α) : (cmax a b).y = max a.y b.y := rfl
@[simp] theorem cmax_z [Max α] (a b : Vec3 α) : (cmax a b).z = max a.z b.z := rfl

theorem dot_comm {α : Type} [CommRing α] (a b : Vec3 α) : dot a b = dot b a := by
  simp [dot, mul_comm]

theorem dot_neg_left {α : Type} [CommRing α] (a b : Vec3 α) :
    dot (-a) b = -dot a b := by
  simp [dot]; ring

theorem dot_sub_left {α : Type} [CommRing α] (a b c : Vec3 α) :
    dot (a - b) c = dot a c - dot b c := by
  simp [dot]; ring

theorem dot_smul_left {α : Type} [CommRing α] (s : α) (a b : Vec3 α) :
    dot (s • a) b = s * dot a b := by
  simp [dot]; ring

theorem dot_self_nonneg (a : Vec3 ℝ) : 0 ≤ dot a a := by
  have := mul_self_nonneg a.x
  have := mul_self_nonneg a.y
  have := mul_self_nonneg a.z
  simp only [dot]; linarith

theorem eq_zero_of_dot_self_eq_zero {a : Vec3 ℝ} (h : dot a a = 0) : a = 0 := by
  simp only [dot] at h
  have hx := mul_self_nonneg a.x
  have hy := mul_self_nonneg a.y
  have hz := mul_self_nonneg a.z
  have hx0 : a.x = 0 := by nlinarith
  have hy0 : a.y = 0 := by nlinarith
  have hz0 : a.z = 0 := by nlinarith
  cases a
  simp_all
  rfl

end Vec3

namespace AABB

theorem boxLE_refl (b : AABB) : boxLE b b :=
  ⟨le_refl _, le_refl _, le_refl _, le_refl _, le_refl _, le_refl _⟩

theorem boxLE_trans {a b c : AABB} (h1 : boxLE a b) (h2 : boxLE b c) : boxLE a c := by
  obtain ⟨p1, p2, p3, p4, p5, p6⟩ := h1
  obtain ⟨q1, q2, q3, q4, q5, q6⟩ := h2
  exact ⟨le_trans q1 p1, le_trans q2 p2, le_trans q3 p3,
    le_trans p4 q4, le_trans p5 q5, le_trans p6 q6⟩

theorem strictInside_mono {pt : Vec3 ℚ} {a b : AABB} (hle : boxLE a b)
    (h : strictInside pt a) : strictInside pt b := by
  obtain ⟨q1, q2, q3, q4, q5, q6⟩ := hle
  obtain ⟨h1, h2, h3, h4, h5, h6⟩ := h
  exact ⟨lt_of_le_of_lt q1 h1, lt_of_lt_of_le h2 q4,
    lt_of_le_of_lt q2 h3, lt_of_lt_of_le h4 q5,
    lt_of_le_of_lt q3 h5, lt_of_lt_of_le h6 q6⟩

theorem expand_growth (b : AABB) (p : Vec3 ℚ) : boxLE b (b.expand p) := by
  unfold expand boxLE
  refine ⟨?_, ?_, ?_, ?_, ?_, ?_⟩ <;> simp [min_le_left, le_max_left]

theorem expandBox_growth (b o : AABB) : boxLE b (b.expandBox o) := by
  unfold expandBox boxLE
  refine ⟨?_, ?_, ?_, ?_, ?_, ?_⟩ <;> simp [min_le_left, le_max_left]

end AABB

/-! ### Nearest-hit scan: minQ, xHit, the fold invariant -/

theorem minQ_eq_none {ts : List ℚ} : minQ ts = none ↔ ts = [] := by
  cases ts with
  | nil => simp [minQ]
  | cons t ts =>
      simp only [minQ]
      cases minQ ts <;> simp

theorem minQ_mem : ∀ {ts : List ℚ} {t : ℚ}, minQ ts = some t → t ∈ ts := by
  intro ts
  induction ts with
  | nil => intro t h; simp [minQ] at h
  | cons a ts ih =>
      intro t h
      simp only [minQ] at h
      cases hm : minQ ts with
      | none =>
          rw [hm] at h
          injection h with h
          exact h ▸ List.mem_cons_self a ts
      | some u =>
          rw [hm] at h
          injection h with h
          by_cases hau : a ≤ u
          · rw [if_pos hau] at h
            exact h ▸ List.mem_cons_self a ts
          · rw [if_neg hau] at h
            exact List.mem_cons_of_mem a (h ▸ ih hm)

theorem minQ_le : ∀ {ts : List ℚ} {t : ℚ}, minQ ts = some t → ∀ u ∈ ts, t ≤ u := by
  intro ts
  induction ts with
  | nil => intro t _ u hu; exact absurd hu (List.not_mem_nil u)
  | cons a ts ih =>
      intro t h u hu
      simp only [minQ] at h
      cases hm : minQ ts with
      | none =>
          rw [hm] at h
          injection h with h
          have hts : ts = [] := minQ_eq_none.mp hm
          subst hts
          rcases List.mem_cons.mp hu with rfl | hu'
          · exact le_of_eq h.symm
          · exact absurd hu' (List.not_mem_nil u)
      | some v =>
          rw [hm] at h
          injection h with h
          rcases List.mem_cons.mp hu with hua | hu'
          · rw [hua]
            by_cases hav : a ≤ v
            · rw [if_pos hav] at h
              exact le_of_eq h.symm
            · rw [if_neg hav] at h
              exact h ▸ le_of_lt (lt_of_not_le hav)
          · by_cases hav : a ≤ v
            · rw [if_pos hav] at h
              exact h ▸ le_trans hav (ih hm u hu')
            · rw [if_neg hav] at h
              exact h ▸ ih hm u hu'

theorem xHit_none {cs : List ℚ} {tMin tMax : ℚ} (h : xHit cs tMin tMax = none) :
    ∀ u ∈ cs, ¬(tMin ≤ u ∧ u ≤ tMax) := by
  intro u hu hcon
  unfold xHit at h
  have hmem : u ∈ cs.filter (fun t => decide (tMin ≤ t) && decide (t ≤ tMax)) := by
    simp [List.mem_filter, hu, hcon.1, hcon.2]
  rw [minQ_eq_none.mp h] at hmem
  exact absurd hmem (List.not_mem_nil u)

theorem xHit_some {cs : List ℚ} {tMin tMax t : ℚ} (h : xHit cs tMin tMax = some t) :
    (t ∈ cs ∧ tMin ≤ t ∧ t ≤ tMax) ∧ ∀ u ∈ cs, tMin ≤ u → u ≤ tMax → t ≤ u := by
  unfold xHit at h
  have hmem := minQ_mem h
  simp only [List.mem_filter, Bool.and_eq_true, decide_eq_true_eq] at hmem
  refine ⟨⟨hmem.1, hmem.2.1, hmem.2.2⟩, ?_⟩
  intro u hu h1 h2
  exact minQ_le h u (by simp [List.mem_filter, hu, h1, h2])

theorem NoCand_nil {cands : ℕ → List ℚ} {tMin tMax : ℚ} : NoCand cands [] tMin tMax := by
  intro p hp
  exact absurd hp (List.not_mem_nil p)

theorem NoCand_append {cands : ℕ → List ℚ} {ps qs : List BuildPrimitive} {tMin tMax : ℚ}
    (h1 : NoCand cands ps tMin tMax) (h2 : NoCand cands qs tMin tMax) :
    NoCand cands (ps ++ qs) tMin tMax := by
  intro p hp
  rcases List.mem_append.mp hp with h | h
  · exact h1 p h
  · exact h2 p h

theorem Attains_append_left {cands : ℕ → List ℚ} {ps qs : List BuildPrimitive}
    {tMin tMax : ℚ} {i : ℕ} {t : ℚ} (h : Attains cands ps tMin tMax i t) :
    Attains cands (ps ++ qs) tMin tMax i t := by
  obtain ⟨p, hp, rest⟩ := h
  exact ⟨p, List.mem_append.mpr (Or.inl hp), rest⟩

theorem Attains_append_right {cands : ℕ → List ℚ} {ps qs : List BuildPrimitive}
    {tMin tMax : ℚ} {i : ℕ} {t : ℚ} (h : Attains cands qs tMin tMax i t) :
    Attains cands (ps ++ qs) tMin tMax i t := by
  obtain ⟨p, hp, rest⟩ := h
  exact ⟨p, List.mem_append.mpr (Or.inr hp), rest⟩

theorem LowerBound_append {cands : ℕ → List ℚ} {ps qs : List BuildPrimitive}
    {tMin tMax : ℚ} {t : ℚ} (h1 : LowerBound cands ps tMin tMax t)
    (h2 : LowerBound cands qs tMin tMax t) :
    LowerBound cands (ps ++ qs) tMin tMax t := by
  intro p hp
  rcases List.mem_append.mp hp with h | h
  · exact h1 p h
  · exact h2 p h

theorem LowerBound_of_NoCand {cands : ℕ → List ℚ} {ps : List BuildPrimitive}
    {tMin tMax : ℚ} {t : ℚ} (h : NoCand cands ps tMin tMax) :
    LowerBound cands ps tMin tMax t := by
  intro p hp u hu hwin
  exact absurd hwin (h p hp u hu)

theorem LowerBound_mono {cands : ℕ → List ℚ} {ps : List BuildPrimitive}
    {tMin tMax : ℚ} {t t' : ℚ} (hle : t' ≤ t) (h : LowerBound cands ps tMin tMax t) :
    LowerBound cands ps tMin tMax t' := by
  intro p hp u hu hwin
  exact le_trans hle (h p hp u hu hwin)

theorem scanStep_inv {cands : ℕ → List ℚ} {done : List BuildPrimitive}
    {tMin tMax : ℚ} {acc : ℚ × Option (ℕ × ℚ)}
    (h : ScanInv cands done tMin tMax acc) (p : BuildPrimitive) :
    ScanInv cands (done ++ [p]) tMin tMax (scanStep cands tMin acc p) := by
  obtain ⟨c, b⟩ := acc
  cases b with
  | none =>
      obtain ⟨hc, hnc⟩ := h
      have hgoal : scanStep cands tMin (c, none) p =
          match xHit (cands p.id) tMin tMax with
          | some t => if t < tMax then (t, some (p.id, t)) else (c, none)
          | none => (c, none) := by
        rw [scanStep]
        simp only [hc]
      rw [hgoal]
      cases hx : xHit (cands p.id) tMin tMax with
      | none =>
          refine ⟨hc, NoCand_append hnc ?_⟩
          intro q hq u hu hwin
          have hq' : q = p := by simpa using hq
          subst hq'
          exact xHit_none hx u hu ⟨hwin.1, le_of_lt hwin.2⟩
      | some t =>
          obtain ⟨⟨htc, ht1, ht2⟩, hmin⟩ := xHit_some hx
          dsimp only
          by_cases hlt : t < tMax
          · rw [if_pos hlt]
            refine ⟨rfl, ⟨p, by simp, rfl, htc, ht1, hlt⟩, ?_⟩
            refine LowerBound_append (LowerBound_of_NoCand hnc) ?_
            intro q hq u hu hwin
            have hq' : q = p := by simpa using hq
            subst hq'
            exact hmin u hu hwin.1 (le_of_lt hwin.2)
          · rw [if_neg hlt]
            refine ⟨hc, NoCand_append hnc ?_⟩
            intro q hq u hu hwin
            have hq' : q = p := by simpa using hq
            subst hq'
            have := hmin u hu hwin.1 (le_of_lt hwin.2)
            exact hlt (lt_of_le_of_lt this hwin.2)
  | some it =>
      obtain ⟨hc, hat, hlb⟩ := h
      obtain ⟨q0, hq0, hid0, hc0, hwin0⟩ := hat
      have hat' : Attains cands done tMin tMax it.1 it.2 := ⟨q0, hq0, hid0, hc0, hwin0⟩
      have hgoal : scanStep cands tMin (c, some it) p =
          match xHit (cands p.id) tMin it.2 with
          | some t => if t < it.2 then (t, some (p.id, t)) else (c, some it)
          | none => (c, some it) := by
        rw [scanStep]
        simp only [hc]
      rw [hgoal]
      cases hx : xHit (cands p.id) tMin it.2 with
      | none =>
          refine ⟨hc, Attains_append_left hat', LowerBound_append hlb ?_⟩
          intro q hq u hu hwin
          have hq' : q = p := by simpa using hq
          subst hq'
          by_cases huc : u ≤ it.2
          · exact absurd ⟨hwin.1, huc⟩ (xHit_none hx u hu)
          · exact le_of_lt (lt_of_not_le huc)
      | some t =>
          obtain ⟨⟨htc, ht1, ht2⟩, hmin⟩ := xHit_some hx
          dsimp only
          by_cases hlt : t < it.2
          · rw [if_pos hlt]
            refine ⟨rfl, ⟨p, by simp, rfl, htc, ht1, lt_trans hlt hwin0.2⟩, ?_⟩
            refine LowerBound_append (LowerBound_mono (le_of_lt hlt) hlb) ?_
            intro q hq u hu hwin
            have hq' : q = p := by simpa using hq
            subst hq'
            by_cases huc : u ≤ it.2
            · exact hmin u hu hwin.1 huc
            · exact le_trans ht2 (le_of_lt (lt_of_not_le huc))
          · rw [if_neg hlt]
            have ht2' : t = it.2 := le_antisymm ht2 (le_of_not_lt hlt)
            refine ⟨hc, Attains_append_left hat', LowerBound_append hlb ?_⟩
            intro q hq u hu hwin
            have hq' : q = p := by simpa using hq
            subst hq'
            by_cases huc : u ≤ it.2
            · exact ht2' ▸ hmin u hu hwin.1 huc
            · exact le_of_lt (lt_of_not_le huc)

theorem foldl_scan_inv (cands : ℕ → List ℚ) (tMin tMax : ℚ) :
    ∀ (ps done : List BuildPrimitive) (acc : ℚ × Option (ℕ × ℚ)),
    ScanInv cands done tMin tMax acc →
    ScanInv cands (done ++ ps) tMin tMax (ps.foldl (scanStep cands tMin) acc) := by
  intro ps
  induction ps with
  | nil => intro done acc h; simpa using h
  | cons p ps ih =>
      intro done acc h
      have h2 := ih (done ++ [p]) _ (scanStep_inv h p)
      simpa [List.append_assoc] using h2

theorem scanBest_isBest (cands : ℕ → List ℚ) (ps : List BuildPrimitive) (tMin tMax : ℚ) :
    IsBest cands ps tMin tMax (scanBest cands ps tMin tMax) := by
  have h0 : ScanInv cands [] tMin tMax (tMax, none) := ⟨rfl, NoCand_nil⟩
  have h := foldl_scan_inv cands tMin tMax ps [] (tMax, none) h0
  rw [List.nil_append] at h
  unfold scanBest
  rcases hf : ps.foldl (scanStep cands tMin) (tMax, none) with ⟨c, b⟩
  rw [hf] at h
  cases b with
  | none => exact h.2
  | some it => exact ⟨h.2.1, h.2.2⟩

theorem isBest_congr {cands : ℕ → List ℚ} {ps qs : List BuildPrimitive}
    {tMin tMax : ℚ} {r : Option (ℕ × ℚ)} (hm : ∀ x, x ∈ ps ↔ x ∈ qs)
    (h : IsBest cands ps tMin tMax r) : IsBest cands qs tMin tMax r := by
  cases r with
  | none =>
      intro p hp
      exact h p ((hm p).mpr hp)
  | some it =>
      obtain ⟨⟨p, hp, rest⟩, hlb⟩ := h
      refine ⟨⟨p, (hm p).mp hp, rest⟩, ?_⟩
      intro q hq
      exact hlb q ((hm q).mpr hq)

theorem isBest_snd_eq {cands : ℕ → List ℚ} {ps qs : List BuildPrimitive}
    {tMin tMax : ℚ} {r1 r2 : Option (ℕ × ℚ)}
    (h1 : IsBest cands ps tMin tMax r1) (h2 : IsBest cands qs tMin tMax r2)
    (hm : ∀ x, x ∈ ps ↔ x ∈ qs) :
    r1.map Prod.snd = r2.map Prod.snd := by
  cases r1 with
  | none =>
      cases r2 with
      | none => rfl
      | some it =>
          obtain ⟨⟨p, hp, _, hc, hw⟩, _⟩ := h2
          exact absurd hw (h1 p ((hm p).mpr hp) it.2 hc)
  | some it1 =>
      cases r2 with
      | none =>
          obtain ⟨⟨p, hp, _, hc, hw⟩, _⟩ := h1
          exact absurd hw (h2 p ((hm p).mp hp) it1.2 hc)
      | some it2 =>
          obtain ⟨⟨p1, hp1, _, hc1, hw1⟩, hlb1⟩ := h1
          obtain ⟨⟨p2, hp2, _, hc2, hw2⟩, hlb2⟩ := h2
          have hle1 : it1.2 ≤ it2.2 := hlb1 p2 ((hm p2).mpr hp2) it2.2 hc2 hw2
          have hle2 : it2.2 ≤ it1.2 := hlb2 p1 ((hm p1).mp hp1) it1.2 hc1 hw1
          simp [le_antisymm hle1 hle2]

theorem isBest_none_iff {cands : ℕ → List ℚ} {ps qs : List BuildPrimitive}
    {tMin tMax : ℚ} {r1 r2 : Option (ℕ × ℚ)}
    (h1 : IsBest cands ps tMin tMax r1) (h2 : IsBest cands qs tMin tMax r2)
    (hm : ∀ x, x ∈ ps ↔ x ∈ qs) :
    (r1 = none ↔ r2 = none) := by
  have := isBest_snd_eq h1 h2 hm
  cases r1 <;> cases r2 <;> simp_all

theorem isBest_eq_of_unique {cands : ℕ → List ℚ} {ps qs : List BuildPrimitive}
    {tMin tMax : ℚ} {r1 r2 : Option (ℕ × ℚ)}
    (h1 : IsBest cands ps tMin tMax r1) (h2 : IsBest cands qs tMin tMax r2)
    (hm : ∀ x, x ∈ ps ↔ x ∈ qs)
    (huniq : ∀ p ∈ ps, ∀ q ∈ ps, ∀ t ∈ cands p.id, t ∈ cands q.id →
      inWin tMin tMax t → p.id = q.id) :
    r1 = r2 := by
  have hsnd := isBest_snd_eq h1 h2 hm
  cases r1 with
  | none => cases r2 with
      | none => rfl
      | some it => simp at hsnd
  | some it1 =>
      cases r2 with
      | none => simp at hsnd
      | some it2 =>
          simp only [Option.map] at hsnd
          injection hsnd with hsnd
          obtain ⟨⟨p1, hp1, hid1, hc1, hw1⟩, _⟩ := h1
          obtain ⟨⟨p2, hp2, hid2, hc2, hw2⟩, _⟩ := h2
          have hp2' : p2 ∈ ps := (hm p2).mpr hp2
          have hceq : it1.2 ∈ cands p2.id := by rw [← hsnd] at hc2; exact hc2
          have hids := huniq p1 hp1 p2 hp2' it1.2 (hid1 ▸ hc1) hceq hw1
          obtain ⟨i1, t1⟩ := it1
          obtain ⟨i2, t2⟩ := it2
          simp only at hsnd
          subst hsnd
          simp only at hid1 hid2
          rw [← hid1, ← hid2, hids]

theorem combineHits_isBest {cands : ℕ → List ℚ} {ps1 ps2 : List BuildPrimitive}
    {tMin tMax : ℚ} {r1 r2 : Option (ℕ × ℚ)}
    (h1 : IsBest cands ps1 tMin tMax r1) (h2 : IsBest cands ps2 tMin tMax r2) :
    IsBest cands (ps1 ++ ps2) tMin tMax (combineHits r1 r2) := by
  cases r1 with
  | none =>
      cases r2 with
      | none => exact NoCand_append h1 h2
      | some it2 =>
          exact ⟨Attains_append_right h2.1,
            LowerBound_append (LowerBound_of_NoCand h1) h2.2⟩
  | some it1 =>
      cases r2 with
      | none =>
          exact ⟨Attains_append_left h1.1,
            LowerBound_append h1.2 (LowerBound_of_NoCand h2)⟩
      | some it2 =>
          show IsBest cands (ps1 ++ ps2) tMin tMax
            (if it1.2 < it2.2 then some it1 else some it2)
          by_cases hlt : it1.2 < it2.2
          · rw [if_pos hlt]
            exact ⟨Attains_append_left h1.1,
              LowerBound_append h1.2 (LowerBound_mono (le_of_lt hlt) h2.2)⟩
          · rw [if_neg hlt]
            exact ⟨Attains_append_right h2.1,
              LowerBound_append (LowerBound_mono (le_of_not_lt hlt) h1.2) h2.2⟩

/-! ### The slab test is conservative: a parameter whose point is
strictly inside the box survives every axis window -/

theorem slabAxis_keeps {mn mx o d tMin tMax t : ℚ} (hd : d ≠ 0)
    (h1 : tMin ≤ t) (h2 : t < tMax) (hlo : mn < o + t * d) (hhi : o + t * d < mx) :
    (AABB.slabAxis mn mx o d tMin tMax).1 ≤ t ∧ t < (AABB.slabAxis mn mx o d tMin tMax).2 := by
  have hcan : d * (1 / d) = 1 := mul_one_div_cancel hd
  simp only [AABB.slabAxis]
  rcases lt_or_gt_of_ne hd with hneg | hpos
  · have hinv : (1 : ℚ) / d < 0 := one_div_neg.mpr hneg
    rw [if_pos hinv]
    dsimp only
    constructor
    · have hlt : (mx - o) * (1 / d) < t := by
        have hstep : t * d < mx - o := by linarith
        calc (mx - o) * (1 / d) < t * d * (1 / d) := mul_lt_mul_of_neg_right hstep hinv
          _ = t := by rw [mul_assoc, hcan, mul_one]
      split
      · exact le_of_lt hlt
      · exact h1
    · have hgt : t < (mn - o) * (1 / d) := by
        have hstep : mn - o < t * d := by linarith
        calc t = t * d * (1 / d) := by rw [mul_assoc, hcan, mul_one]
          _ < (mn - o) * (1 / d) := mul_lt_mul_of_neg_right hstep hinv
      split
      · exact hgt
      · exact h2
  · have hinv : 0 < (1 : ℚ) / d := one_div_pos.mpr hpos
    rw [if_neg (not_lt.mpr (le_of_lt hinv))]
    dsimp only
    constructor
    · have hlt : (mn - o) * (1 / d) < t := by
        have hstep : mn - o < t * d := by linarith
        calc (mn - o) * (1 / d) < t * d * (1 / d) := mul_lt_mul_of_pos_right hstep hinv
          _ = t := by rw [mul_assoc, hcan, mul_one]
      split
      · exact le_of_lt hlt
      · exact h1
    · have hgt : t < (mx - o) * (1 / d) := by
        have hstep : t * d < mx - o := by linarith
        calc t = t * d * (1 / d) := by rw [mul_assoc, hcan, mul_one]
          _ < (mx - o) * (1 / d) := mul_lt_mul_of_pos_right hstep hinv
      split
      · exact hgt
      · exact h2

theorem intersect_of_strictInside {b : AABB} {ray : Ray ℚ} {tMin tMax t : ℚ}
    (hdx : ray.direction.x ≠ 0) (hdy : ray.direction.y ≠ 0) (hdz : ray.direction.z ≠ 0)
    (h1 : tMin ≤ t) (h2 : t < tMax) (hin : AABB.strictInside (ray.at t) b) :
    b.intersect ray tMin tMax = true := by
  obtain ⟨i1, i2, i3, i4, i5, i6⟩ := hin
  have e1 : (ray.at t).x = ray.origin.x + t * ray.direction.x := rfl
  have e2 : (ray.at t).y = ray.origin.y + t * ray.direction.y := rfl
  have e3 : (ray.at t).z = ray.origin.z + t * ray.direction.z := rfl
  rw [e1] at i1 i2
  rw [e2] at i3 i4
  rw [e3] at i5 i6
  have hw0 := slabAxis_keeps hdx h1 h2 i1 i2
  have hw1 := slabAxis_keeps hdy hw0.1 hw0.2 i3 i4
  have hw2 := slabAxis_keeps hdz hw1.1 hw1.2 i5 i6
  simp only [AABB.intersect]
  rw [if_neg (not_le.mpr (lt_of_le_of_lt hw0.1 hw0.2))]
  rw [if_neg (not_le.mpr (lt_of_le_of_lt hw1.1 hw1.2))]
  rw [if_neg (not_le.mpr (lt_of_le_of_lt hw2.1 hw2.2))]

/-! ### Builder structure: sorting permutes, the leaf partition
permutes, built subtrees own exactly their input range -/

theorem insertSorted_perm (key : BuildPrimitive → ℚ) (p : BuildPrimitive) :
    ∀ l, (insertSorted key p l).Perm (p :: l) := by
  intro l
  induction l with
  | nil => exact List.Perm.refl _
  | cons q qs ih =>
      unfold insertSorted
      split
      · exact List.Perm.refl _
      · exact (List.Perm.cons q ih).trans (List.Perm.swap p q qs)

theorem sortByKey_perm (key : BuildPrimitive → ℚ) :
    ∀ l, (sortByKey key l).Perm l := by
  intro l
  induction l with
  | nil => exact List.Perm.refl _
  | cons p ps ih => exact (insertSorted_perm key p _).trans (List.Perm.cons p ih)

theorem sortByKey_length (key : BuildPrimitive → ℚ) (l : List BuildPrimitive) :
    (sortByKey key l).length = l.length :=
  (sortByKey_perm key l).length_eq

theorem filter3_perm : ∀ l : List BuildPrimitive,
    ((l.filter fun p => p.geom.isTri) ++ (l.filter fun p => p.geom.isSph) ++
      (l.filter fun p => p.geom.isPla)).Perm l := by
  intro l
  induction l with
  | nil => exact List.Perm.refl _
  | cons p ps ih =>
      have hfc : ∀ (f : BuildPrimitive → Bool) (qs : List BuildPrimitive),
          (p :: qs).filter f = if f p = true then p :: qs.filter f else qs.filter f :=
        fun f qs => List.filter_cons
      cases hg : p.geom with
      | tri t =>
          rw [hfc, hfc, hfc]
          rw [if_pos (by rw [hg]; rfl), if_neg (by rw [hg]; simp [PrimGeom.isSph]),
            if_neg (by rw [hg]; simp [PrimGeom.isPla])]
          rw [List.cons_append, List.cons_append]
          exact List.Perm.cons p ih
      | sph s =>
          rw [hfc, hfc, hfc]
          rw [if_neg (by rw [hg]; simp [PrimGeom.isTri]), if_pos (by rw [hg]; rfl),
            if_neg (by rw [hg]; simp [PrimGeom.isPla])]
          refine (List.Perm.append_right _ List.perm_middle).trans ?_
          rw [List.cons_append]
          exact List.Perm.cons p ih
      | pla q =>
          rw [hfc, hfc, hfc]
          rw [if_neg (by rw [hg]; simp [PrimGeom.isTri]), if_neg (by rw [hg]; simp [PrimGeom.isSph]),
            if_pos (by rw [hg]; rfl)]
          exact List.perm_middle.trans (List.Perm.cons p ih)

/-! ### Every primitive's bounding box is contained in its leaf's box,
and in every ancestor's box -/

theorem PrimGeom.isTri_exists {g : PrimGeom} (h : g.isTri = true) : ∃ t, g = .tri t := by
  cases g with
  | tri t => exact ⟨t, rfl⟩
  | sph s => simp [PrimGeom.isTri] at h
  | pla q => simp [PrimGeom.isTri] at h

theorem PrimGeom.isSph_exists {g : PrimGeom} (h : g.isSph = true) : ∃ s, g = .sph s := by
  cases g with
  | tri t => simp [PrimGeom.isSph] at h
  | sph s => exact ⟨s, rfl⟩
  | pla q => simp [PrimGeom.isSph] at h

theorem PrimGeom.isPla_exists {g : PrimGeom} (h : g.isPla = true) : ∃ q, g = .pla q := by
  cases g with
  | tri t => simp [PrimGeom.isPla] at h
  | sph s => simp [PrimGeom.isPla] at h
  | pla q => exact ⟨q, rfl⟩

theorem leafStepTri_growth (b : AABB) (p : BuildPrimitive) : AABB.boxLE b (leafStepTri b p) := by
  unfold leafStepTri
  cases p.geom with
  | tri t =>
      exact AABB.boxLE_trans (AABB.boxLE_trans (AABB.expand_growth _ _)
        (AABB.expand_growth _ _)) (AABB.expand_growth _ _)
  | sph s => exact AABB.boxLE_refl b
  | pla q => exact AABB.boxLE_refl b

theorem leafStepSph_growth (b : AABB) (p : BuildPrimitive) : AABB.boxLE b (leafStepSph b p) := by
  unfold leafStepSph
  cases p.geom with
  | tri t => exact AABB.boxLE_refl b
  | sph s => exact AABB.boxLE_trans (AABB.expand_growth _ _) (AABB.expand_growth _ _)
  | pla q => exact AABB.boxLE_refl b

theorem leafStepPla_growth (b : AABB) (p : BuildPrimitive) : AABB.boxLE b (leafStepPla b p) := by
  unfold leafStepPla
  cases p.geom with
  | tri t => exact AABB.boxLE_refl b
  | sph s => exact AABB.boxLE_refl b
  | pla q => exact AABB.expandBox_growth _ _

theorem foldl_growth {f : AABB → BuildPrimitive → AABB}
    (hf : ∀ b p, AABB.boxLE b (f b p)) :
    ∀ (l : List BuildPrimitive) (b : AABB), AABB.boxLE b (l.foldl f b) := by
  intro l
  induction l with
  | nil => intro b; exact AABB.boxLE_refl b
  | cons p ps ih => intro b; exact AABB.boxLE_trans (hf b p) (ih (f b p))

theorem accOK_of_boxLE {b b' : AABB} (h : AABB.boxLE b b') (ha : accOK b) : accOK b' := by
  obtain ⟨q1, q2, q3, q4, q5, q6⟩ := h
  obtain ⟨a1, a2, a3, a4, a5, a6⟩ := ha
  exact ⟨le_trans q1 a1, le_trans q2 a2, le_trans q3 a3,
    le_trans a4 q4, le_trans a5 q5, le_trans a6 q6⟩

theorem accOK_empty : accOK AABB.empty :=
  ⟨le_refl _, le_refl _, le_refl _, le_refl _, le_refl _, le_refl _⟩

theorem leafStepTri_contains {b : AABB} {p : BuildPrimitive} {t : Triangle}
    (hb : accOK b) (hg : p.geom = .tri t) :
    AABB.boxLE (calcBBox p.geom) (leafStepTri b p) := by
  obtain ⟨a1, a2, a3, a4, a5, a6⟩ := hb
  unfold leafStepTri calcBBox
  rw [hg]
  simp only [calculateTriangleBBox, AABB.expand, AABB.empty, AABB.boxLE,
    Vec3.cmin_x, Vec3.cmin_y, Vec3.cmin_z, Vec3.cmax_x, Vec3.cmax_y, Vec3.cmax_z,
    Vec3.const_x, Vec3.const_y, Vec3.const_z]
  refine ⟨?_, ?_, ?_, ?_, ?_, ?_⟩
  · exact min_le_min (min_le_min (min_le_min a1 le_rfl) le_rfl) le_rfl
  · exact min_le_min (min_le_min (min_le_min a2 le_rfl) le_rfl) le_rfl
  · exact min_le_min (min_le_min (min_le_min a3 le_rfl) le_rfl) le_rfl
  · exact max_le_max (max_le_max (max_le_max a4 le_rfl) le_rfl) le_rfl
  · exact max_le_max (max_le_max (max_le_max a5 le_rfl) le_rfl) le_rfl
  · exact max_le_max (max_le_max (max_le_max a6 le_rfl) le_rfl) le_rfl

theorem leafStepSph_contains {b : AABB} {p : BuildPrimitive} {s : Sphere}
    (hg : p.geom = .sph s) :
    AABB.boxLE (calcBBox p.geom) (leafStepSph b p) := by
  unfold leafStepSph calcBBox
  rw [hg]
  simp only [calculateSphereBBox, AABB.expand, AABB.boxLE,
    Vec3.cmin_x, Vec3.cmin_y, Vec3.cmin_z, Vec3.cmax_x, Vec3.cmax_y, Vec3.cmax_z,
    Vec3.sub_x, Vec3.sub_y, Vec3.sub_z, Vec3.add_x, Vec3.add_y, Vec3.add_z,
    Vec3.const_x, Vec3.const_y, Vec3.const_z]
  refine ⟨?_, ?_, ?_, ?_, ?_, ?_⟩
  · exact le_trans (min_le_left _ _) (min_le_right _ _)
  · exact le_trans (min_le_left _ _) (min_le_right _ _)
  · exact le_trans (min_le_left _ _) (min_le_right _ _)
  · exact le_max_right _ _
  · exact le_max_right _ _
  · exact le_max_right _ _

theorem leafStepPla_contains {b : AABB} {p : BuildPrimitive} {q : Plane}
    (hg : p.geom = .pla q) :
    AABB.boxLE (calcBBox p.geom) (leafStepPla b p) := by
  unfold leafStepPla calcBBox
  rw [hg]
  simp only [AABB.expandBox, AABB.boxLE,
    Vec3.cmin_x, Vec3.cmin_y, Vec3.cmin_z, Vec3.cmax_x, Vec3.cmax_y, Vec3.cmax_z]
  exact ⟨min_le_right _ _, min_le_right _ _, min_le_right _ _,
    le_max_right _ _, le_max_right _ _, le_max_right _ _⟩

theorem foldl_tri_contains :
    ∀ (ts : List BuildPrimitive) (b : AABB), accOK b →
    ∀ p ∈ ts, ∀ t : Triangle, p.geom = .tri t →
    AABB.boxLE (calcBBox p.geom) (ts.foldl leafStepTri b) := by
  intro ts
  induction ts with
  | nil => intro b _ p hp; exact absurd hp (List.not_mem_nil p)
  | cons q qs ih =>
      intro b hb p hp t hg
      rcases List.mem_cons.mp hp with hpq | hp'
      · subst hpq
        exact AABB.boxLE_trans (leafStepTri_contains hb hg)
          (foldl_growth leafStepTri_growth qs (leafStepTri b p))
      · exact ih (leafStepTri b q) (accOK_of_boxLE (leafStepTri_growth b q) hb) p hp' t hg

theorem foldl_sph_contains :
    ∀ (ss : List BuildPrimitive) (b : AABB),
    ∀ p ∈ ss, ∀ s : Sphere, p.geom = .sph s →
    AABB.boxLE (calcBBox p.geom) (ss.foldl leafStepSph b) := by
  intro ss
  induction ss with
  | nil => intro b p hp; exact absurd hp (List.not_mem_nil p)
  | cons q qs ih =>
      intro b p hp s hg
      rcases List.mem_cons.mp hp with hpq | hp'
      · subst hpq
        exact AABB.boxLE_trans (leafStepSph_contains hg)
          (foldl_growth leafStepSph_growth qs (leafStepSph b p))
      · exact ih (leafStepSph b q) p hp' s hg

theorem foldl_pla_contains :
    ∀ (ps : List BuildPrimitive) (b : AABB),
    ∀ p ∈ ps, ∀ q : Plane, p.geom = .pla q →
    AABB.boxLE (calcBBox p.geom) (ps.foldl leafStepPla b) := by
  intro ps
  induction ps with
  | nil => intro b p hp; exact absurd hp (List.not_mem_nil p)
  | cons q qs ih =>
      intro b p hp pq hg
      rcases List.mem_cons.mp hp with hpq | hp'
      · subst hpq
        exact AABB.boxLE_trans (leafStepPla_contains hg)
          (foldl_growth leafStepPla_growth qs (leafStepPla b p))
      · exact ih (leafStepPla b q) p hp' pq hg

theorem leafCalcBBox_contains {ts ss ps : List BuildPrimitive} {p : BuildPrimitive}
    (hts : ∀ q ∈ ts, q.geom.isTri = true)
    (hss : ∀ q ∈ ss, q.geom.isSph = true)
    (hps : ∀ q ∈ ps, q.geom.isPla = true)
    (hp : p ∈ ts ++ ss ++ ps) :
    AABB.boxLE (calcBBox p.geom) (leafCalcBBox ts ss ps) := by
  unfold leafCalcBBox
  have hacc1 : accOK (ts.foldl leafStepTri AABB.empty) :=
    accOK_of_boxLE (foldl_growth leafStepTri_growth ts AABB.empty) accOK_empty
  rcases List.mem_append.mp hp with hp1 | hp3
  · rcases List.mem_append.mp hp1 with hp1 | hp2
    · obtain ⟨t, hg⟩ := PrimGeom.isTri_exists (hts p hp1)
      refine AABB.boxLE_trans (foldl_tri_contains ts AABB.empty accOK_empty p hp1 t hg) ?_
      exact AABB.boxLE_trans (foldl_growth leafStepSph_growth ss _)
        (foldl_growth leafStepPla_growth ps _)
    · obtain ⟨s, hg⟩ := PrimGeom.isSph_exists (hss p hp2)
      refine AABB.boxLE_trans
        (foldl_sph_contains ss (ts.foldl leafStepTri AABB.empty) p hp2 s hg) ?_
      exact foldl_growth leafStepPla_growth ps _
  · obtain ⟨q, hg⟩ := PrimGeom.isPla_exists (hps p hp3)
    exact foldl_pla_contains ps (ss.foldl leafStepSph (ts.foldl leafStepTri AABB.empty)) p hp3 q hg

/-! ### Shape of the built tree -/

theorem splitLists_append_perm (l : List BuildPrimitive) :
    ((splitLists l).1 ++ (splitLists l).2).Perm l := by
  unfold splitLists
  dsimp only
  rw [List.take_append_drop]
  exact sortByKey_perm _ l

theorem splitLists_fst_length (l : List BuildPrimitive) :
    (splitLists l).1.length = min (l.length / 2) l.length := by
  unfold splitLists
  dsimp only
  rw [List.length_take, sortByKey_length]

theorem splitLists_snd_length (l : List BuildPrimitive) :
    (splitLists l).2.length = l.length - l.length / 2 := by
  unfold splitLists
  dsimp only
  rw [List.length_drop, sortByKey_length]

theorem splitLists_fst_subset {l : List BuildPrimitive} {p : BuildPrimitive}
    (h : p ∈ (splitLists l).1) : p ∈ l := by
  unfold splitLists at h
  dsimp only at h
  exact (sortByKey_perm _ l).subset (List.take_subset _ _ h)

theorem splitLists_snd_subset {l : List BuildPrimitive} {p : BuildPrimitive}
    (h : p ∈ (splitLists l).2) : p ∈ l := by
  unfold splitLists at h
  dsimp only at h
  exact (sortByKey_perm _ l).subset (List.drop_subset _ _ h)

theorem recursiveBuildF_nil (fuel : ℕ) : recursiveBuildF fuel [] = none := by
  cases fuel <;> rfl

theorem recursiveBuildF_cons_le {fuel : ℕ} {q : BuildPrimitive} {qs : List BuildPrimitive}
    (h : (q :: qs).length ≤ 4) :
    recursiveBuildF (fuel + 1) (q :: qs) = some (mkLeaf (q :: qs)) := by
  simp only [recursiveBuildF]
  rw [if_pos h]

theorem recursiveBuildF_cons_gt {fuel : ℕ} {q : BuildPrimitive} {qs : List BuildPrimitive}
    (h : ¬ (q :: qs).length ≤ 4) :
    recursiveBuildF (fuel + 1) (q :: qs) =
      some (mkInternal (recursiveBuildF fuel (splitLists (q :: qs)).1)
                       (recursiveBuildF fuel (splitLists (q :: qs)).2)) := by
  simp only [recursiveBuildF]
  rw [if_neg h]

theorem recursiveBuildF_isNone :
    ∀ {fuel : ℕ} {l : List BuildPrimitive}, l.length ≤ fuel →
    (recursiveBuildF fuel l).isNone = l.isEmpty := by
  intro fuel l hlen
  cases l with
  | nil => rw [recursiveBuildF_nil]; rfl
  | cons q qs =>
      cases fuel with
      | zero => simp at hlen
      | succ f =>
          by_cases h4 : (q :: qs).length ≤ 4
          · rw [recursiveBuildF_cons_le h4]; rfl
          · rw [recursiveBuildF_cons_gt h4]; rfl

theorem recursiveBuildF_ne_none {fuel : ℕ} {l : List BuildPrimitive}
    (hlen : l.length ≤ fuel) (hne : l ≠ []) :
    ∃ n, recursiveBuildF fuel l = some n := by
  cases hc : recursiveBuildF fuel l with
  | none =>
      have h := recursiveBuildF_isNone hlen
      rw [hc] at h
      have hemp : l.isEmpty = true := by simpa using h.symm
      exact absurd (List.isEmpty_iff.mp hemp) hne
  | some n => exact ⟨n, rfl⟩

theorem mkLeaf_prims (l : List BuildPrimitive) :
    (mkLeaf l).prims = (l.filter fun p => p.geom.isTri) ++
      (l.filter fun p => p.geom.isSph) ++ (l.filter fun p => p.geom.isPla) := rfl

theorem mkInternal_some_prims (a b : BVHNode) :
    (mkInternal (some a) (some b)).prims = a.prims ++ b.prims := rfl

theorem mkInternal_some_bbox (a b : BVHNode) :
    (mkInternal (some a) (some b)).bbox =
      ⟨Vec3.cmin a.bbox.min b.bbox.min, Vec3.cmax a.bbox.max b.bbox.max⟩ := rfl

theorem recursiveBuildF_prims :
    ∀ (fuel : ℕ) {l : List BuildPrimitive} {n : BVHNode}, l.length ≤ fuel →
    recursiveBuildF fuel l = some n → n.prims.Perm l := by
  intro fuel
  induction fuel with
  | zero =>
      intro l n hlen hsome
      cases l with
      | nil => rw [recursiveBuildF_nil] at hsome; exact absurd hsome (by simp)
      | cons q qs => simp at hlen
  | succ f ih =>
      intro l n hlen hsome
      cases l with
      | nil => rw [recursiveBuildF_nil] at hsome; exact absurd hsome (by simp)
      | cons q qs =>
          by_cases h4 : (q :: qs).length ≤ 4
          · rw [recursiveBuildF_cons_le h4] at hsome
            injection hsome with hsome
            subst hsome
            rw [mkLeaf_prims]
            exact filter3_perm (q :: qs)
          · rw [recursiveBuildF_cons_gt h4] at hsome
            injection hsome with hsome
            have h5 : 5 ≤ (q :: qs).length := by omega
            have hmid : (q :: qs).length / 2 ≤ (q :: qs).length := Nat.div_le_self _ _
            have hf1 : (splitLists (q :: qs)).1.length = (q :: qs).length / 2 := by
              rw [splitLists_fst_length]
              exact min_eq_left hmid
            have hf2 : (splitLists (q :: qs)).2.length =
                (q :: qs).length - (q :: qs).length / 2 := splitLists_snd_length (q :: qs)
            have hl1 : (splitLists (q :: qs)).1.length ≤ f := by rw [hf1]; omega
            have hl2 : (splitLists (q :: qs)).2.length ≤ f := by rw [hf2]; omega
            have hne1 : (splitLists (q :: qs)).1 ≠ [] := by
              intro hc
              have h0 : (splitLists (q :: qs)).1.length = 0 := by rw [hc]; rfl
              rw [hf1] at h0
              omega
            have hne2 : (splitLists (q :: qs)).2 ≠ [] := by
              intro hc
              have h0 : (splitLists (q :: qs)).2.length = 0 := by rw [hc]; rfl
              rw [hf2] at h0
              omega
            obtain ⟨n1, hn1⟩ := recursiveBuildF_ne_none hl1 hne1
            obtain ⟨n2, hn2⟩ := recursiveBuildF_ne_none hl2 hne2
            rw [hn1, hn2] at hsome
            subst hsome
            rw [mkInternal_some_prims]
            exact ((ih hl1 hn1).append (ih hl2 hn2)).trans (splitLists_append_perm (q :: qs))

theorem recursiveBuildF_bbox :
    ∀ (fuel : ℕ) {l : List BuildPrimitive} {n : BVHNode}, l.length ≤ fuel →
    recursiveBuildF fuel l = some n →
    ∀ p ∈ n.prims, AABB.boxLE (calcBBox p.geom) n.bbox := by
  intro fuel
  induction fuel with
  | zero =>
      intro l n hlen hsome
      cases l with
      | nil => rw [recursiveBuildF_nil] at hsome; exact absurd hsome (by simp)
      | cons q qs => simp at hlen
  | succ f ih =>
      intro l n hlen hsome
      cases l with
      | nil => rw [recursiveBuildF_nil] at hsome; exact absurd hsome (by simp)
      | cons q qs =>
          by_cases h4 : (q :: qs).length ≤ 4
          · rw [recursiveBuildF_cons_le h4] at hsome
            injection hsome with hsome
            subst hsome
            intro p hp
            rw [mkLeaf_prims] at hp
            refine leafCalcBBox_contains ?_ ?_ ?_ hp
            · intro x hx; exact (List.mem_filter.mp hx).2
            · intro x hx; exact (List.mem_filter.mp hx).2
            · intro x hx; exact (List.mem_filter.mp hx).2
          · rw [recursiveBuildF_cons_gt h4] at hsome
            injection hsome with hsome
            have h5 : 5 ≤ (q :: qs).length := by omega
            have hmid : (q :: qs).length / 2 ≤ (q :: qs).length := Nat.div_le_self _ _
            have hf1 : (splitLists (q :: qs)).1.length = (q :: qs).length / 2 := by
              rw [splitLists_fst_length]
              exact min_eq_left hmid
            have hf2 : (splitLists (q :: qs)).2.length =
                (q :: qs).length - (q :: qs).length / 2 := splitLists_snd_length (q :: qs)
            have hl1 : (splitLists (q :: qs)).1.length ≤ f := by rw [hf1]; omega
            have hl2 : (splitLists (q :: qs)).2.length ≤ f := by rw [hf2]; omega
            have hne1 : (splitLists (q :: qs)).1 ≠ [] := by
              intro hc
              have h0 : (splitLists (q :: qs)).1.length = 0 := by rw [hc]; rfl
              rw [hf1] at h0
              omega
            have hne2 : (splitLists (q :: qs)).2 ≠ [] := by
              intro hc
              have h0 : (splitLists (q :: qs)).2.length = 0 := by rw [hc]; rfl
              rw [hf2] at h0
              omega
            obtain ⟨n1, hn1⟩ := recursiveBuildF_ne_none hl1 hne1
            obtain ⟨n2, hn2⟩ := recursiveBuildF_ne_none hl2 hne2
            rw [hn1, hn2] at hsome
            subst hsome
            intro p hp
            rw [mkInternal_some_prims] at hp
            have hsub1 : AABB.boxLE n1.bbox (mkInternal (some n1) (some n2)).bbox := by
              rw [mkInternal_some_bbox]
              exact ⟨min_le_left _ _, min_le_left _ _, min_le_left _ _,
                le_max_left _ _, le_max_left _ _, le_max_left _ _⟩
            have hsub2 : AABB.boxLE n2.bbox (mkInternal (some n1) (some n2)).bbox := by
              rw [mkInternal_some_bbox]
              exact ⟨min_le_right _ _, min_le_right _ _, min_le_right _ _,
                le_max_right _ _, le_max_right _ _, le_max_right _ _⟩
            rcases List.mem_append.mp hp with hp1 | hp2
            · exact AABB.boxLE_trans (ih hl1 hn1 p hp1) hsub1
            · exact AABB.boxLE_trans (ih hl2 hn2 p hp2) hsub2

theorem filter3_length (l : List BuildPrimitive) :
    (l.filter fun p => p.geom.isTri).length + (l.filter fun p => p.geom.isSph).length +
      (l.filter fun p => p.geom.isPla).length = l.length := by
  have h := (filter3_perm l).length_eq
  simp only [List.length_append] at h
  omega

theorem recursiveBuildF_wf :
    ∀ (fuel : ℕ) {l : List BuildPrimitive} {n : BVHNode}, l.length ≤ fuel →
    recursiveBuildF fuel l = some n → treeWF n = true := by
  intro fuel
  induction fuel with
  | zero =>
      intro l n hlen hsome
      cases l with
      | nil => rw [recursiveBuildF_nil] at hsome; exact absurd hsome (by simp)
      | cons q qs => simp at hlen
  | succ f ih =>
      intro l n hlen hsome
      cases l with
      | nil => rw [recursiveBuildF_nil] at hsome; exact absurd hsome (by simp)
      | cons q qs =>
          by_cases h4 : (q :: qs).length ≤ 4
          · rw [recursiveBuildF_cons_le h4] at hsome
            injection hsome with hsome
            subst hsome
            show treeWF (mkLeaf (q :: qs)) = true
            have hlensum := filter3_length (q :: qs)
            rw [show treeWF (mkLeaf (q :: qs)) =
                (decide (1 ≤ ((q :: qs).filter fun p => p.geom.isTri).length +
                  ((q :: qs).filter fun p => p.geom.isSph).length +
                  ((q :: qs).filter fun p => p.geom.isPla).length) &&
                 decide (((q :: qs).filter fun p => p.geom.isTri).length +
                  ((q :: qs).filter fun p => p.geom.isSph).length +
                  ((q :: qs).filter fun p => p.geom.isPla).length ≤ 4)) from rfl]
            rw [Bool.and_eq_true, decide_eq_true_eq, decide_eq_true_eq]
            refine ⟨?_, ?_⟩
            · rw [hlensum]
              exact Nat.succ_le_succ (Nat.zero_le _)
            · rw [hlensum]
              exact h4
          · rw [recursiveBuildF_cons_gt h4] at hsome
            injection hsome with hsome
            have h5 : 5 ≤ (q :: qs).length := by omega
            have hmid : (q :: qs).length / 2 ≤ (q :: qs).length := Nat.div_le_self _ _
            have hf1 : (splitLists (q :: qs)).1.length = (q :: qs).length / 2 := by
              rw [splitLists_fst_length]
              exact min_eq_left hmid
            have hf2 : (splitLists (q :: qs)).2.length =
                (q :: qs).length - (q :: qs).length / 2 := splitLists_snd_length (q :: qs)
            have hl1 : (splitLists (q :: qs)).1.length ≤ f := by rw [hf1]; omega
            have hl2 : (splitLists (q :: qs)).2.length ≤ f := by rw [hf2]; omega
            have hne1 : (splitLists (q :: qs)).1 ≠ [] := by
              intro hc
              have h0 : (splitLists (q :: qs)).1.length = 0 := by rw [hc]; rfl
              rw [hf1] at h0
              omega
            have hne2 : (splitLists (q :: qs)).2 ≠ [] := by
              intro hc
              have h0 : (splitLists (q :: qs)).2.length = 0 := by rw [hc]; rfl
              rw [hf2] at h0
              omega
            obtain ⟨n1, hn1⟩ := recursiveBuildF_ne_none hl1 hne1
            obtain ⟨n2, hn2⟩ := recursiveBuildF_ne_none hl2 hne2
            rw [hn1, hn2] at hsome
            subst hsome
            show treeWF (mkInternal (some n1) (some n2)) = true
            simp only [mkInternal, treeWF, Bool.and_eq_true]
            exact ⟨ih hl1 hn1, ih hl2 hn2⟩

/-! ### Traversal returns the nearest hit of the node's primitives -/

theorem intersect_leaf (cands : ℕ → List ℚ) (ray : Ray ℚ)
    (ts ss ps : List BuildPrimitive) (bb : AABB) (tMin tMax : ℚ) :
    (BVHNode.leaf ts ss ps bb).intersect cands ray tMin tMax =
      scanBest cands (ts ++ ss ++ ps) tMin tMax := rfl

theorem intersect_internal_some (cands : ℕ → List ℚ) (ray : Ray ℚ)
    (n1 n2 : BVHNode) (bb : AABB) (tMin tMax : ℚ) :
    (BVHNode.internal (some n1) (some n2) bb).intersect cands ray tMin tMax =
      if bb.intersect ray tMin tMax = false then none
      else combineHits (n1.intersect cands ray tMin tMax)
        (n2.intersect cands ray tMin tMax) := rfl

theorem mkBuildList_bbox {tris : List Triangle} {sphs : List Sphere} {plas : List Plane}
    {p : BuildPrimitive} (hp : p ∈ mkBuildList tris sphs plas) :
    p.bbox = calcBBox p.geom := by
  unfold mkBuildList at hp
  simp only [List.mem_map] at hp
  obtain ⟨ig, _, hig⟩ := hp
  rw [← hig]

theorem intersect_isBest (cands : ℕ → List ℚ) (ray : Ray ℚ)
    (hdx : ray.direction.x ≠ 0) (hdy : ray.direction.y ≠ 0) (hdz : ray.direction.z ≠ 0) :
    ∀ (fuel : ℕ) {l : List BuildPrimitive} {n : BVHNode} (tMin tMax : ℚ),
    l.length ≤ fuel → recursiveBuildF fuel l = some n →
    (∀ p ∈ l, ∀ t ∈ cands p.id, inWin tMin tMax t →
      AABB.strictInside (ray.at t) (calcBBox p.geom)) →
    IsBest cands n.prims tMin tMax (n.intersect cands ray tMin tMax) := by
  intro fuel
  induction fuel with
  | zero =>
      intro l n tMin tMax hlen hsome _
      cases l with
      | nil => rw [recursiveBuildF_nil] at hsome; exact absurd hsome (by simp)
      | cons q qs => simp at hlen
  | succ f ih =>
      intro l n tMin tMax hlen hsome hin
      cases l with
      | nil => rw [recursiveBuildF_nil] at hsome; exact absurd hsome (by simp)
      | cons q qs =>
          by_cases h4 : (q :: qs).length ≤ 4
          · rw [recursiveBuildF_cons_le h4] at hsome
            injection hsome with hsome
            subst hsome
            exact scanBest_isBest cands (mkLeaf (q :: qs)).prims tMin tMax
          · have hsome0 : recursiveBuildF (f + 1) (q :: qs) = some n := hsome
            rw [recursiveBuildF_cons_gt h4] at hsome
            injection hsome with hsome
            have h5 : 5 ≤ (q :: qs).length := by omega
            have hmid : (q :: qs).length / 2 ≤ (q :: qs).length := Nat.div_le_self _ _
            have hf1 : (splitLists (q :: qs)).1.length = (q :: qs).length / 2 := by
              rw [splitLists_fst_length]
              exact min_eq_left hmid
            have hf2 : (splitLists (q :: qs)).2.length =
                (q :: qs).length - (q :: qs).length / 2 := splitLists_snd_length (q :: qs)
            have hl1 : (splitLists (q :: qs)).1.length ≤ f := by rw [hf1]; omega
            have hl2 : (splitLists (q :: qs)).2.length ≤ f := by rw [hf2]; omega
            have hne1 : (splitLists (q :: qs)).1 ≠ [] := by
              intro hc
              have h0 : (splitLists (q :: qs)).1.length = 0 := by rw [hc]; rfl
              rw [hf1] at h0
              omega
            have hne2 : (splitLists (q :: qs)).2 ≠ [] := by
              intro hc
              have h0 : (splitLists (q :: qs)).2.length = 0 := by rw [hc]; rfl
              rw [hf2] at h0
              omega
            obtain ⟨n1, hn1⟩ := recursiveBuildF_ne_none hl1 hne1
            obtain ⟨n2, hn2⟩ := recursiveBuildF_ne_none hl2 hne2
            rw [hn1, hn2] at hsome
            subst hsome
            have hin1 : ∀ p ∈ (splitLists (q :: qs)).1, ∀ t ∈ cands p.id,
                inWin tMin tMax t → AABB.strictInside (ray.at t) (calcBBox p.geom) :=
              fun p hp => hin p (splitLists_fst_subset hp)
            have hin2 : ∀ p ∈ (splitLists (q :: qs)).2, ∀ t ∈ cands p.id,
                inWin tMin tMax t → AABB.strictInside (ray.at t) (calcBBox p.geom) :=
              fun p hp => hin p (splitLists_snd_subset hp)
            have hib1 := ih tMin tMax hl1 hn1 hin1
            have hib2 := ih tMin tMax hl2 hn2 hin2
            have hmkeq : mkInternal (some n1) (some n2) = BVHNode.internal (some n1) (some n2)
                ⟨Vec3.cmin n1.bbox.min n2.bbox.min, Vec3.cmax n1.bbox.max n2.bbox.max⟩ := rfl
            rw [hmkeq]
            rw [intersect_internal_some]
            by_cases hslab : AABB.intersect
                ⟨Vec3.cmin n1.bbox.min n2.bbox.min, Vec3.cmax n1.bbox.max n2.bbox.max⟩
                ray tMin tMax = false
            · rw [if_pos hslab]
              intro p hp t ht hwin
              have hpl : p ∈ q :: qs := by
                rcases List.mem_append.mp hp with hp1 | hp2
                · exact splitLists_fst_subset ((recursiveBuildF_prims f hl1 hn1).mem_iff.mp hp1)
                · exact splitLists_snd_subset ((recursiveBuildF_prims f hl2 hn2).mem_iff.mp hp2)
              have hstrict := hin p hpl t ht hwin
              have hp' : p ∈ (mkInternal (some n1) (some n2)).prims := by
                rw [← hmkeq] at hp
                exact hp
              have hbox := recursiveBuildF_bbox (f + 1) hlen hsome0 p hp'
              have hbb : (mkInternal (some n1) (some n2)).bbox =
                  ⟨Vec3.cmin n1.bbox.min n2.bbox.min, Vec3.cmax n1.bbox.max n2.bbox.max⟩ := rfl
              rw [hbb] at hbox
              have hstrictn := AABB.strictInside_mono hbox hstrict
              have htrue := intersect_of_strictInside hdx hdy hdz hwin.1 hwin.2 hstrictn
              rw [htrue] at hslab
              exact absurd hslab (by simp)
            · rw [if_neg hslab]
              exact combineHits_isBest hib1 hib2

theorem rootIntersect_isBest (tris : List Triangle) (sphs : List Sphere)
    (plas : List Plane) (cands : ℕ → List ℚ) (ray : Ray ℚ) (tMin tMax : ℚ)
    (hdx : ray.direction.x ≠ 0) (hdy : ray.direction.y ≠ 0) (hdz : ray.direction.z ≠ 0)
    (hin : ∀ p ∈ mkBuildList tris sphs plas, ∀ t ∈ cands p.id, inWin tMin tMax t →
      AABB.strictInside (ray.at t) p.bbox) :
    IsBest cands (mkBuildList tris sphs plas) tMin tMax
      (rootIntersect cands ray (build tris sphs plas) tMin tMax) := by
  have hin' : ∀ p ∈ mkBuildList tris sphs plas, ∀ t ∈ cands p.id, inWin tMin tMax t →
      AABB.strictInside (ray.at t) (calcBBox p.geom) := by
    intro p hp t ht hw
    have hb := mkBuildList_bbox hp
    rw [← hb]
    exact hin p hp t ht hw
  unfold build recursiveBuild rootIntersect
  cases hb : recursiveBuildF (mkBuildList tris sphs plas).length (mkBuildList tris sphs plas) with
  | none =>
      have hemp : mkBuildList tris sphs plas = [] := by
        have h := recursiveBuildF_isNone (le_refl (mkBuildList tris sphs plas).length)
        rw [hb] at h
        exact List.isEmpty_iff.mp (by simpa using h.symm)
      rw [hemp]
      exact NoCand_nil
  | some n =>
      have h1 := intersect_isBest cands ray hdx hdy hdz _ tMin tMax (le_refl _) hb hin'
      have h2 := recursiveBuildF_prims _ (le_refl _) hb
      exact isBest_congr (fun x => h2.mem_iff) h1

/-! ## Claim theorems -/

set_option maxRecDepth 8000

/-- Claim C1, counterexample: the claim as stated fails.  In the scene
`flatTris` of five coplanar axis-aligned triangles, brute force finds
the hit of the ray `flatRay` on triangle 0 at `t = 1` (a geometrically
genuine hit: the hit point `(0.3, 0.6, 0)` lies in triangle 0's
bounding box, and the window `[0, 100]` contains `t`), yet the BVH
root's `intersect` reports a miss: the root is an internal node whose
box is flat in `z`, so the slab test's `tMax <= tMin` rejection fires
even though the ray passes through the box. -/
theorem bvh_intersect_counterexample :
    bruteForce flatCands (mkBuildList flatTris [] []) 0 100 = some (0, 1) ∧
    rootIntersect flatCands flatRay (build flatTris [] []) 0 100 = none ∧
    (flatRay.direction.x ≠ 0 ∧ flatRay.direction.y ≠ 0 ∧ flatRay.direction.z ≠ 0) ∧
    (inWin 0 100 1 ∧ flatRay.at 1 = ⟨3/10, 3/5, 0⟩ ∧
      (calculateTriangleBBox ⟨⟨0, 0, 0⟩, ⟨1, 1, 0⟩, ⟨0, 1, 0⟩⟩).min.x ≤ 3/10 ∧
      (3 : ℚ)/10 ≤ (calculateTriangleBBox ⟨⟨0, 0, 0⟩, ⟨1, 1, 0⟩, ⟨0, 1, 0⟩⟩).max.x ∧
      (calculateTriangleBBox ⟨⟨0, 0, 0⟩, ⟨1, 1, 0⟩, ⟨0, 1, 0⟩⟩).min.y ≤ 3/5 ∧
      (3 : ℚ)/5 ≤ (calculateTriangleBBox ⟨⟨0, 0, 0⟩, ⟨1, 1, 0⟩, ⟨0, 1, 0⟩⟩).max.y ∧
      (calculateTriangleBBox ⟨⟨0, 0, 0⟩, ⟨1, 1, 0⟩, ⟨0, 1, 0⟩⟩).min.z ≤ 0 ∧
      (0 : ℚ) ≤ (calculateTriangleBBox ⟨⟨0, 0, 0⟩, ⟨1, 1, 0⟩, ⟨0, 1, 0⟩⟩).max.z) := by
  refine ⟨by with_unfolding_all decide, by with_unfolding_all decide,
    by with_unfolding_all decide, ?_⟩
  with_unfolding_all decide

/-- Claim C1 (amended): for every scene and every ray whose direction
components are all nonzero (the spec's non-degenerate rays), whenever
every candidate hit in the query window lands strictly inside its
primitive's bounding box, the BVH root's `intersect` agrees with
brute-force testing every primitive: same hit/miss verdict and the same
(globally smallest) hit parameter `t`; and when no two distinct
primitives share a candidate hit parameter in the window, the very same
primitive is reported.  (The strictness condition is forced by the
counterexample: a hit exactly on a flat node box is pruned by the slab
test's `tMax <= tMin` rejection.) -/
theorem bvh_intersect_equals_bruteforce_of_strict_hits
    (tris : List Triangle) (sphs : List Sphere) (plas : List Plane)
    (cands : ℕ → List ℚ) (ray : Ray ℚ) (tMin tMax : ℚ)
    (hdx : ray.direction.x ≠ 0) (hdy : ray.direction.y ≠ 0) (hdz : ray.direction.z ≠ 0)
    (hin : ∀ p ∈ mkBuildList tris sphs plas, ∀ t ∈ cands p.id, inWin tMin tMax t →
      AABB.strictInside (ray.at t) p.bbox) :
    (rootIntersect cands ray (build tris sphs plas) tMin tMax).map Prod.snd =
      (bruteForce cands (mkBuildList tris sphs plas) tMin tMax).map Prod.snd ∧
    (rootIntersect cands ray (build tris sphs plas) tMin tMax = none ↔
      bruteForce cands (mkBuildList tris sphs plas) tMin tMax = none) ∧
    ((∀ p ∈ mkBuildList tris sphs plas, ∀ q ∈ mkBuildList tris sphs plas,
        ∀ t ∈ cands p.id, t ∈ cands q.id → inWin tMin tMax t → p.id = q.id) →
      rootIntersect cands ray (build tris sphs plas) tMin tMax =
        bruteForce cands (mkBuildList tris sphs plas) tMin tMax) := by
  have h1 := rootIntersect_isBest tris sphs plas cands ray tMin tMax hdx hdy hdz hin
  have h2 := scanBest_isBest cands (mkBuildList tris sphs plas) tMin tMax
  have hm : ∀ x, x ∈ mkBuildList tris sphs plas ↔ x ∈ mkBuildList tris sphs plas :=
    fun x => Iff.rfl
  exact ⟨isBest_snd_eq h1 h2 hm, isBest_none_iff h1 h2 hm,
    fun hu => isBest_eq_of_unique h1 h2 hm hu⟩

/-- Claim C1, witness: the amended equivalence applied to the concrete
scene `boxTris` (five non-degenerate triangles) with the ray `boxRay`:
both traversal and brute force return the hit of primitive 0 at
`t = 3/2`. -/
theorem bvh_intersect_equals_bruteforce_witness :
    (rootIntersect boxCands boxRay (build boxTris [] []) 0 100).map Prod.snd =
      (bruteForce boxCands (mkBuildList boxTris [] []) 0 100).map Prod.snd ∧
    rootIntersect boxCands boxRay (build boxTris [] []) 0 100 =
      bruteForce boxCands (mkBuildList boxTris [] []) 0 100 := by
  have h := bvh_intersect_equals_bruteforce_of_strict_hits boxTris [] [] boxCands boxRay
    0 100 (by with_unfolding_all decide) (by with_unfolding_all decide)
    (by with_unfolding_all decide) (by with_unfolding_all decide)
  exact ⟨h.1, h.2.2 (by with_unfolding_all decide)⟩

/-- Claim C9: for every input primitive list, `recursiveBuild` returns
null exactly when the range is empty; every leaf of the tree it
produces holds between 1 and 4 primitives in total (triangles plus
spheres plus planes), and every internal node has both children
present — a split range of size at least 5 always yields two non-empty
halves. -/
theorem recursiveBuild_tree_invariants (l : List BuildPrimitive) :
    ((recursiveBuild l).isNone = l.isEmpty) ∧
    (recursiveBuild l).elim True (fun n => treeWF n = true) := by
  constructor
  · exact recursiveBuildF_isNone (le_refl _)
  · unfold recursiveBuild
    cases hb : recursiveBuildF l.length l with
    | none => exact trivial
    | some n => exact recursiveBuildF_wf _ (le_refl _) hb

theorem Vec3.ext3 {α : Type} {a b : Vec3 α} (hx : a.x = b.x) (hy : a.y = b.y)
    (hz : a.z = b.z) : a = b := by
  cases a
  cases b
  dsimp at hx hy hz
  rw [hx, hy, hz]

/-! ### AABB reachability invariant (for C8) -/

theorem reachable_inv {b : AABB} (h : AABB.Reachable b) :
    b = AABB.empty ∨
    (b.min.x ≤ b.max.x ∧ b.min.y ≤ b.max.y ∧ b.min.z ≤ b.max.z ∧
     b.min.x ≤ FLT_MAX ∧ b.min.y ≤ FLT_MAX ∧ b.min.z ≤ FLT_MAX ∧
     -FLT_MAX ≤ b.max.x ∧ -FLT_MAX ≤ b.max.y ∧ -FLT_MAX ≤ b.max.z) := by
  induction h with
  | empty => exact Or.inl rfl
  | point b p _ ih =>
      right
      have hb : b.min.x ≤ FLT_MAX ∧ b.min.y ≤ FLT_MAX ∧ b.min.z ≤ FLT_MAX ∧
          -FLT_MAX ≤ b.max.x ∧ -FLT_MAX ≤ b.max.y ∧ -FLT_MAX ≤ b.max.z := by
        rcases ih with he | hi
        · rw [he]
          exact ⟨le_refl _, le_refl _, le_refl _, le_refl _, le_refl _, le_refl _⟩
        · exact ⟨hi.2.2.2.1, hi.2.2.2.2.1, hi.2.2.2.2.2.1,
            hi.2.2.2.2.2.2.1, hi.2.2.2.2.2.2.2.1, hi.2.2.2.2.2.2.2.2⟩
      refine ⟨le_trans (min_le_right _ _) (le_max_right _ _),
        le_trans (min_le_right _ _) (le_max_right _ _),
        le_trans (min_le_right _ _) (le_max_right _ _),
        le_trans (min_le_left _ _) hb.1, le_trans (min_le_left _ _) hb.2.1,
        le_trans (min_le_left _ _) hb.2.2.1,
        le_trans hb.2.2.2.1 (le_max_left _ _), le_trans hb.2.2.2.2.1 (le_max_left _ _),
        le_trans hb.2.2.2.2.2 (le_max_left _ _)⟩
  | box b o _ _ ihb iho =>
      rcases ihb with hbe | hbi
      · rcases iho with hoe | hoi
        · left
          rw [hbe, hoe]
          show AABB.expandBox AABB.empty AABB.empty = AABB.empty
          unfold AABB.expandBox AABB.empty
          rw [show Vec3.cmin (Vec3.const FLT_MAX) (Vec3.const FLT_MAX) =
              Vec3.const FLT_MAX from Vec3.ext3 (min_self _) (min_self _) (min_self _)]
          rw [show Vec3.cmax (Vec3.const (-FLT_MAX)) (Vec3.const (-FLT_MAX)) =
              Vec3.const (-FLT_MAX) from Vec3.ext3 (max_self _) (max_self _) (max_self _)]
        · right
          rw [hbe]
          exact ⟨le_trans (min_le_right _ _) (le_trans hoi.1 (le_max_right _ _)),
            le_trans (min_le_right _ _) (le_trans hoi.2.1 (le_max_right _ _)),
            le_trans (min_le_right _ _) (le_trans hoi.2.2.1 (le_max_right _ _)),
            min_le_left _ _, min_le_left _ _, min_le_left _ _,
            le_max_left _ _, le_max_left _ _, le_max_left _ _⟩
      · rcases iho with hoe | hoi
        · right
          rw [hoe]
          exact ⟨le_trans (min_le_left _ _) (le_trans hbi.1 (le_max_left _ _)),
            le_trans (min_le_left _ _) (le_trans hbi.2.1 (le_max_left _ _)),
            le_trans (min_le_left _ _) (le_trans hbi.2.2.1 (le_max_left _ _)),
            le_trans (min_le_right _ _) (le_refl _), le_trans (min_le_right _ _) (le_refl _),
            le_trans (min_le_right _ _) (le_refl _),
            le_trans (le_refl _) (le_max_right _ _), le_trans (le_refl _) (le_max_right _ _),
            le_trans (le_refl _) (le_max_right _ _)⟩
        · right
          exact ⟨le_trans (min_le_left _ _) (le_trans hbi.1 (le_max_left _ _)),
            le_trans (min_le_left _ _) (le_trans hbi.2.1 (le_max_left _ _)),
            le_trans (min_le_left _ _) (le_trans hbi.2.2.1 (le_max_left _ _)),
            le_trans (min_le_left _ _) hbi.2.2.2.1, le_trans (min_le_left _ _) hbi.2.2.2.2.1,
            le_trans (min_le_left _ _) hbi.2.2.2.2.2.1,
            le_trans hbi.2.2.2.2.2.2.1 (le_max_left _ _),
            le_trans hbi.2.2.2.2.2.2.2.1 (le_max_left _ _),
            le_trans hbi.2.2.2.2.2.2.2.2 (le_max_left _ _)⟩

theorem surfaceArea_spec_of_reachable {b : AABB} (h : AABB.Reachable b) :
    0 ≤ b.surfaceArea ∧ (b.surfaceArea = 0 →
      (b.max.x - b.min.x) * (b.max.y - b.min.y) * (b.max.z - b.min.z) = 0) := by
  have hSA : b.surfaceArea = 2 * ((b.max.x - b.min.x) * (b.max.y - b.min.y) +
      (b.max.x - b.min.x) * (b.max.z - b.min.z) +
      (b.max.y - b.min.y) * (b.max.z - b.min.z)) := rfl
  rcases reachable_inv h with he | hi
  · subst he
    constructor
    · rw [hSA]
      norm_num [AABB.empty, FLT_MAX, Vec3.const]
    · intro h0
      rw [hSA] at h0
      norm_num [AABB.empty, FLT_MAX, Vec3.const] at h0
  · obtain ⟨h1, h2, h3, _⟩ := hi
    have hdx : 0 ≤ b.max.x - b.min.x := by linarith
    have hdy : 0 ≤ b.max.y - b.min.y := by linarith
    have hdz : 0 ≤ b.max.z - b.min.z := by linarith
    have hxy := mul_nonneg hdx hdy
    have hxz := mul_nonneg hdx hdz
    have hyz := mul_nonneg hdy hdz
    constructor
    · rw [hSA]
      linarith
    · intro h0
      rw [hSA] at h0
      have hxy0 : (b.max.x - b.min.x) * (b.max.y - b.min.y) = 0 := by linarith
      rcases mul_eq_zero.mp hxy0 with hx0 | hy0
      · rw [hx0, zero_mul, zero_mul]
      · rw [hy0]
        ring

/-- Claim C8: `AABB::expand` (point and box versions) is monotone —
after an expansion every component of `min` is at most its previous
value and every component of `max` is at least its previous value — and
for every box reachable from the default (empty) box by expand calls,
`surfaceArea()` is non-negative and vanishes only for a zero-volume
box (some axis extent is zero). -/
theorem aabb_expand_monotone_surfaceArea_nonneg :
    (∀ (b : AABB) (p : Vec3 ℚ),
      (b.expand p).min.x ≤ b.min.x ∧ (b.expand p).min.y ≤ b.min.y ∧
      (b.expand p).min.z ≤ b.min.z ∧ b.max.x ≤ (b.expand p).max.x ∧
      b.max.y ≤ (b.expand p).max.y ∧ b.max.z ≤ (b.expand p).max.z) ∧
    (∀ (b o : AABB),
      (b.expandBox o).min.x ≤ b.min.x ∧ (b.expandBox o).min.y ≤ b.min.y ∧
      (b.expandBox o).min.z ≤ b.min.z ∧ b.max.x ≤ (b.expandBox o).max.x ∧
      b.max.y ≤ (b.expandBox o).max.y ∧ b.max.z ≤ (b.expandBox o).max.z) ∧
    (∀ b : AABB, AABB.Reachable b → 0 ≤ b.surfaceArea ∧
      (b.surfaceArea = 0 →
        (b.max.x - b.min.x) * (b.max.y - b.min.y) * (b.max.z - b.min.z) = 0)) := by
  refine ⟨?_, ?_, ?_⟩
  · intro b p
    exact ⟨min_le_left _ _, min_le_left _ _, min_le_left _ _,
      le_max_left _ _, le_max_left _ _, le_max_left _ _⟩
  · intro b o
    exact ⟨min_le_left _ _, min_le_left _ _, min_le_left _ _,
      le_max_left _ _, le_max_left _ _, le_max_left _ _⟩
  · intro b hb
    exact surfaceArea_spec_of_reachable hb

/-- Claim C8, witness: the monotonicity facts at a concrete box and
point, and the surface-area facts at the concrete reachable box
obtained by expanding the empty box with the point `(1, 2, 3)` (a
degenerate point box: surface area 0 and volume 0). -/
theorem aabb_expand_monotone_surfaceArea_nonneg_witness :
    0 ≤ (AABB.empty.expand ⟨1, 2, 3⟩).surfaceArea ∧
    ((AABB.empty.expand ⟨1, 2, 3⟩).surfaceArea = 0 →
      ((AABB.empty.expand ⟨1, 2, 3⟩).max.x - (AABB.empty.expand ⟨1, 2, 3⟩).min.x) *
        ((AABB.empty.expand ⟨1, 2, 3⟩).max.y - (AABB.empty.expand ⟨1, 2, 3⟩).min.y) *
        ((AABB.empty.expand ⟨1, 2, 3⟩).max.z - (AABB.empty.expand ⟨1, 2, 3⟩).min.z) = 0) :=
  aabb_expand_monotone_surfaceArea_nonneg.2.2 (AABB.empty.expand ⟨1, 2, 3⟩)
    (AABB.Reachable.point AABB.empty ⟨1, 2, 3⟩ AABB.Reachable.empty)

/-- Claim C5: for every input ray, hit point and normal (and every
sampled direction), `Lambertian::shade` returns a `Scattered` whose pdf
is exactly `1 / (2 * PI)`, whose attenuation is exactly `albedo / PI`
componentwise, and whose emission is zero. -/
theorem lambertian_shade_spec (sh : Lambertian) (ray : Ray ℚ)
    (hitPoint normal direction : Vec3 ℚ) :
    (sh.shade ray hitPoint normal direction).pdf = 1 / (2 * PI) ∧
    (sh.shade ray hitPoint normal direction).attenuation =
      ⟨sh.albedo.x / PI, sh.albedo.y / PI, sh.albedo.z / PI⟩ ∧
    (sh.shade ray hitPoint normal direction).emission = ⟨0, 0, 0⟩ :=
  ⟨rfl, rfl, rfl⟩

/-- Claim C6: `Lambertian::evaluateDirectLighting` returns
`(albedo / π) * radiance * max 0 (dot normal lightDir) / lightDistance²`
componentwise for every input; in particular with albedo `(1,1,1)`,
`dot(lightDir, normal) = 1`, distance 2 and radiance `(4,4,4)` it
returns `(1/π, 1/π, 1/π)`. -/
theorem lambertian_direct_lighting_spec :
    (∀ (sh : Lambertian) (ray : Ray ℚ) (hitPoint normal : Vec3 ℚ)
      (light : AreaLight ℚ) (lightDir : Vec3 ℚ) (lightDistance : ℚ),
      sh.evaluateDirectLighting ray hitPoint normal light lightDir lightDistance =
        ⟨sh.albedo.x * light.radiance.x * max 0 (Vec3.dot normal lightDir) /
            (PI * (lightDistance * lightDistance)),
         sh.albedo.y * light.radiance.y * max 0 (Vec3.dot normal lightDir) /
            (PI * (lightDistance * lightDistance)),
         sh.albedo.z * light.radiance.z * max 0 (Vec3.dot normal lightDir) /
            (PI * (lightDistance * lightDistance))⟩) ∧
    (Lambertian.mk ⟨1, 1, 1⟩).evaluateDirectLighting ⟨⟨0, 0, 5⟩, ⟨0, 0, -1⟩⟩ ⟨0, 0, 0⟩
        ⟨0, 0, 1⟩ ⟨⟨0, 0, 9⟩, ⟨1, 0, 0⟩, ⟨0, 1, 0⟩, ⟨4, 4, 4⟩⟩ ⟨0, 0, 1⟩ 2 =
      ⟨1 / PI, 1 / PI, 1 / PI⟩ := by
  constructor
  · intro sh ray hitPoint normal light lightDir lightDistance
    unfold Lambertian.evaluateDirectLighting
    refine Vec3.ext3 ?_ ?_ ?_ <;>
      · simp only [Vec3.smul_x, Vec3.smul_y, Vec3.smul_z, Vec3.mul_x, Vec3.mul_y,
          Vec3.mul_z, Vec3.divs_x, Vec3.divs_y, Vec3.divs_z]
        ring
  · unfold Lambertian.evaluateDirectLighting
    refine Vec3.ext3 ?_ ?_ ?_ <;>
      · simp only [Vec3.smul_x, Vec3.smul_y, Vec3.smul_z, Vec3.mul_x, Vec3.mul_y,
          Vec3.mul_z, Vec3.divs_x, Vec3.divs_y, Vec3.divs_z]
        norm_num [Vec3.dot, PI]

/-! ### Real-valued normalisation facts -/

theorem normalizeR_zero : normalizeR 0 = 0 := by
  unfold normalizeR
  exact Vec3.ext3 (zero_div _) (zero_div _) (zero_div _)

theorem dot_normalizeR_self {v : Vec3 ℝ} (hv : v ≠ 0) :
    Vec3.dot (normalizeR v) (normalizeR v) = 1 := by
  have hd0 : 0 ≤ Vec3.dot v v := Vec3.dot_self_nonneg v
  have hdne : Vec3.dot v v ≠ 0 := fun h => hv (Vec3.eq_zero_of_dot_self_eq_zero h)
  have hsq : Real.sqrt (Vec3.dot v v) * Real.sqrt (Vec3.dot v v) = Vec3.dot v v :=
    Real.mul_self_sqrt hd0
  show (v.x / Real.sqrt (Vec3.dot v v)) * (v.x / Real.sqrt (Vec3.dot v v)) +
      (v.y / Real.sqrt (Vec3.dot v v)) * (v.y / Real.sqrt (Vec3.dot v v)) +
      (v.z / Real.sqrt (Vec3.dot v v)) * (v.z / Real.sqrt (Vec3.dot v v)) = 1
  rw [div_mul_div_comm, div_mul_div_comm, div_mul_div_comm, hsq,
    div_add_div_same, div_add_div_same]
  exact div_self hdne

theorem normalizeR_idem (v : Vec3 ℝ) : normalizeR (normalizeR v) = normalizeR v := by
  by_cases hv : v = 0
  · rw [hv, normalizeR_zero, normalizeR_zero]
  · rw [show normalizeR (normalizeR v) =
        (normalizeR v).divs (Real.sqrt (Vec3.dot (normalizeR v) (normalizeR v))) from rfl]
    rw [dot_normalizeR_self hv, Real.sqrt_one]
    exact Vec3.ext3 (div_one _) (div_one _) (div_one _)

theorem normalizeR_neg (v : Vec3 ℝ) : normalizeR (-v) = -(normalizeR v) := by
  unfold normalizeR
  have hdot : Vec3.dot (-v) (-v) = Vec3.dot v v := by
    simp only [Vec3.dot, Vec3.neg_x, Vec3.neg_y, Vec3.neg_z]
    ring
  rw [hdot]
  exact Vec3.ext3 (neg_div _ _) (neg_div _ _) (neg_div _ _)

theorem normalizeR_wo (ray : Ray ℝ) :
    normalizeR (Dielectric.wo ray) = Dielectric.wo ray := by
  unfold Dielectric.wo
  rw [normalizeR_neg, normalizeR_idem]

/-! ### Claims C2 and C3 -/

/-- Claim C2: whenever `metallic = 0` and `roughness = 0.8` under the
shader's exact-equality guard, `DisneyBRDF::getBRDF` returns the flat
Lambertian response `baseColor / π` for every pair of directions and
every normal. -/
theorem disney_fallback_lambertian (s : DisneyBRDF) (h1 : s.metallic = 0)
    (h2 : s.roughness = 0.8) (wi wov normal : Vec3 ℝ) :
    s.getBRDF wi wov normal = s.baseColor.divs (PI : ℝ) := by
  have hc : s.shouldFallbackToLambertian = true := by
    unfold DisneyBRDF.shouldFallbackToLambertian
    rw [decide_eq_true_eq]
    exact ⟨h1, h2⟩
  unfold DisneyBRDF.getBRDF DisneyBRDF.evaluateBRDF
  rw [hc, if_pos rfl]

/-- Claim C2, witness: the fallback evaluated on the concrete Disney
state `exampleDisney` (metallic 0, roughness 0.8) at concrete
directions. -/
theorem disney_fallback_lambertian_witness :
    DisneyBRDF.getBRDF exampleDisney ⟨1, 0, 0⟩ ⟨0, 1, 0⟩ ⟨0, 0, 1⟩ =
      Vec3.divs ⟨1, 1, 1⟩ (PI : ℝ) :=
  disney_fallback_lambertian exampleDisney rfl rfl ⟨1, 0, 0⟩ ⟨0, 1, 0⟩ ⟨0, 0, 1⟩

/-- Claim C3: for every cosine in `[0, 1]` and positive indices `etaI`,
`etaT`, the dielectric `fresnel` function returns a value in `[0, 1]`;
and at normal incidence (cosine 1, where no total internal reflection
can occur since the transmitted sine is 0) it returns exactly
`R0 = ((etaI - etaT) / (etaI + etaT))^2`. -/
theorem dielectric_fresnel_spec (etaI etaT : ℝ) (hI : 0 < etaI) (hT : 0 < etaT) :
    (∀ c : ℝ, 0 ≤ c → c ≤ 1 →
      0 ≤ Dielectric.fresnel c etaI etaT ∧ Dielectric.fresnel c etaI etaT ≤ 1) ∧
    Dielectric.fresnel 1 etaI etaT = ((etaI - etaT) / (etaI + etaT)) ^ (2 : ℕ) := by
  constructor
  · intro c hc0 hc1
    simp only [Dielectric.fresnel]
    by_cases htir : etaI / etaT * Real.sqrt (max 0 (1 - c * c)) ≥ 1
    · rw [if_pos htir]
      norm_num
    · rw [if_neg htir]
      set q := (etaI - etaT) / (etaI + etaT) with hq
      have hsum : (0 : ℝ) < etaI + etaT := by linarith
      have habs : |q| < 1 := by
        rw [hq, abs_div, abs_of_pos hsum, div_lt_one hsum, abs_lt]
        constructor <;> linarith
      have hq1 : q * q < 1 := by
        calc q * q = |q| * |q| := (abs_mul_abs_self q).symm
          _ < 1 * 1 := mul_lt_mul'' habs habs (abs_nonneg q) (abs_nonneg q)
          _ = 1 := one_mul 1
      have hq0 : 0 ≤ q * q := mul_self_nonneg q
      have hu0 : 0 ≤ (1 - c) ^ (5 : ℕ) := pow_nonneg (by linarith) 5
      have hu1 : (1 - c) ^ (5 : ℕ) ≤ 1 := pow_le_one₀ (by linarith) (by linarith)
      have hp1 : 0 ≤ (1 - q * q) * (1 - c) ^ (5 : ℕ) :=
        mul_nonneg (by linarith) hu0
      have hp2 : (1 - q * q) * (1 - c) ^ (5 : ℕ) ≤ (1 - q * q) * 1 :=
        mul_le_mul_of_nonneg_left hu1 (by linarith)
      constructor
      · linarith
      · linarith
  · simp only [Dielectric.fresnel]
    rw [show (1 : ℝ) - 1 * 1 = 0 by ring, max_self, Real.sqrt_zero, mul_zero]
    rw [if_neg (by norm_num)]
    ring

/-- Claim C3, witness: the bounds at cosine `1/2` and the normal
incidence identity, for `etaI = 1`, `etaT = 3/2`. -/
theorem dielectric_fresnel_spec_witness :
    (0 ≤ Dielectric.fresnel (1/2) 1 (3/2) ∧ Dielectric.fresnel (1/2) 1 (3/2) ≤ 1) ∧
    Dielectric.fresnel 1 1 (3/2) = ((1 - 3/2) / (1 + 3/2)) ^ (2 : ℕ) :=
  ⟨(dielectric_fresnel_spec 1 (3/2) (by norm_num) (by norm_num)).1 (1/2)
      (by norm_num) (by norm_num),
    (dielectric_fresnel_spec 1 (3/2) (by norm_num) (by norm_num)).2⟩

/-! ### Claim C4: total internal reflection -/

theorem etaRatio_eq (d : Dielectric) (ray : Ray ℝ) (normal : Vec3 ℝ) :
    (if Vec3.dot (Dielectric.wo ray) normal > 0 then (1 : ℝ) else d.refractiveIndex) /
      (if Vec3.dot (Dielectric.wo ray) normal > 0 then d.refractiveIndex else 1) =
    Dielectric.etaRatio d ray normal := by
  unfold Dielectric.etaRatio
  by_cases h : Vec3.dot (Dielectric.wo ray) normal > 0
  · rw [if_pos h, if_pos h, if_pos h]
  · rw [if_neg h, if_neg h, if_neg h]

theorem etaRatio_pos {d : Dielectric} (ray : Ray ℝ) (normal : Vec3 ℝ)
    (hrefr : 0 < d.refractiveIndex) : 0 < Dielectric.etaRatio d ray normal := by
  unfold Dielectric.etaRatio
  by_cases h : Vec3.dot (Dielectric.wo ray) normal > 0
  · rw [if_pos h]
    positivity
  · rw [if_neg h]
    positivity

theorem refractionDiscriminant_eq (d : Dielectric) (ray : Ray ℝ) (normal : Vec3 ℝ) :
    Dielectric.refractionDiscriminant d ray normal =
      1 - Dielectric.etaRatio d ray normal * Dielectric.etaRatio d ray normal *
        (1 - Vec3.dot (Dielectric.wo ray) (Dielectric.normalCorrected ray normal) *
          Vec3.dot (Dielectric.wo ray) (Dielectric.normalCorrected ray normal)) := by
  unfold Dielectric.refractionDiscriminant
  rw [normalizeR_wo]

theorem fresnel_one_of_disc_nonpos (d : Dielectric) (ray : Ray ℝ) (normal : Vec3 ℝ)
    (hrefr : 0 < d.refractiveIndex)
    (hdisc : Dielectric.refractionDiscriminant d ray normal ≤ 0) :
    Dielectric.fresnel
      |Vec3.dot (Dielectric.wo ray) (Dielectric.normalCorrected ray normal)|
      (if Vec3.dot (Dielectric.wo ray) normal > 0 then 1 else d.refractiveIndex)
      (if Vec3.dot (Dielectric.wo ray) normal > 0 then d.refractiveIndex else 1) = 1 := by
  have hdisc' := hdisc
  rw [refractionDiscriminant_eq] at hdisc'
  set dt := Vec3.dot (Dielectric.wo ray) (Dielectric.normalCorrected ray normal) with hdtdef
  set eta := Dielectric.etaRatio d ray normal with hetadef
  have heta_pos : 0 < eta := etaRatio_pos ray normal hrefr
  have hK : 0 < 1 - dt * dt := by
    by_contra hK0
    push_neg at hK0
    nlinarith
  simp only [Dielectric.fresnel]
  rw [etaRatio_eq, ← hetadef]
  have habs2 : |dt| * |dt| = dt * dt := abs_mul_abs_self dt
  have hmax : max 0 (1 - |dt| * |dt|) = 1 - dt * dt := by
    rw [habs2]
    exact max_eq_right (le_of_lt hK)
  rw [hmax]
  have hsK : Real.sqrt (1 - dt * dt) * Real.sqrt (1 - dt * dt) = 1 - dt * dt :=
    Real.mul_self_sqrt (le_of_lt hK)
  have hs0 : 0 ≤ Real.sqrt (1 - dt * dt) := Real.sqrt_nonneg _
  have hT0 : 0 ≤ eta * Real.sqrt (1 - dt * dt) := mul_nonneg (le_of_lt heta_pos) hs0
  have hTT : eta * Real.sqrt (1 - dt * dt) * (eta * Real.sqrt (1 - dt * dt)) =
      eta * eta * (1 - dt * dt) := by
    calc eta * Real.sqrt (1 - dt * dt) * (eta * Real.sqrt (1 - dt * dt)) =
        eta * eta * (Real.sqrt (1 - dt * dt) * Real.sqrt (1 - dt * dt)) := by ring
      _ = eta * eta * (1 - dt * dt) := by rw [hsK]
  rw [if_pos ?_]
  exact ge_iff_le.mpr (by nlinarith)

/-- Claim C4: `Dielectric::shade` never fails on total internal
reflection: whenever the refraction discriminant is non-positive (for a
physically meaningful positive refractive index), `shade` returns a
well-defined `Scattered` whose continuation direction is the
(normalized) pure reflection of `wo` about the corrected normal and
whose pdf is exactly 1 — on both sides of the sampler draw: the Fresnel
term evaluates to 1, so the reflection branch carries
`pdf = reflectProb = 1`, and the refraction branch detects the zero
vector returned by `refract` and forces reflection with `pdf = 1`. -/
theorem dielectric_shade_total_internal_reflection (d : Dielectric) (random : ℝ)
    (ray : Ray ℝ) (hitPoint normal : Vec3 ℝ)
    (hrefr : 0 < d.refractiveIndex)
    (hdisc : Dielectric.refractionDiscriminant d ray normal ≤ 0) :
    (d.shade random ray hitPoint normal).pdf = 1 ∧
    (d.shade random ray hitPoint normal).ray.direction =
      normalizeR (Dielectric.reflect (Dielectric.wo ray)
        (Dielectric.normalCorrected ray normal)) := by
  have hfr := fresnel_one_of_disc_nonpos d ray normal hrefr hdisc
  have hrefr0 : Dielectric.refract (Dielectric.wo ray)
      (Dielectric.normalCorrected ray normal)
      ((if Vec3.dot (Dielectric.wo ray) normal > 0 then 1 else d.refractiveIndex) /
       (if Vec3.dot (Dielectric.wo ray) normal > 0 then d.refractiveIndex else 1)) = 0 := by
    simp only [Dielectric.refract]
    rw [normalizeR_wo, etaRatio_eq]
    rw [if_neg ?_]
    have hd := hdisc
    rw [refractionDiscriminant_eq] at hd
    exact not_lt.mpr hd
  simp only [Dielectric.shade]
  rw [hfr]
  by_cases hr : random < 1
  · simp only [if_pos hr]
    constructor <;> trivial
  · simp only [if_neg hr]
    rw [hrefr0]
    simp only [if_pos rfl, if_true]
    constructor <;> trivial

/-- Claim C4, witness: a concrete grazing ray inside a medium of index
2 (direction `(4/5, 0, 3/5)` against outward normal `(0, 0, 1)`): the
discriminant is `-39/25`, and `shade` returns pdf 1 and the reflection
direction. -/
theorem dielectric_shade_total_internal_reflection_witness :
    (Dielectric.shade ⟨2, ⟨1, 1, 1⟩⟩ 0 ⟨⟨0, 0, 0⟩, ⟨4/5, 0, 3/5⟩⟩ ⟨0, 0, 0⟩
      ⟨0, 0, 1⟩).pdf = 1 ∧
    (Dielectric.shade ⟨2, ⟨1, 1, 1⟩⟩ 0 ⟨⟨0, 0, 0⟩, ⟨4/5, 0, 3/5⟩⟩ ⟨0, 0, 0⟩
      ⟨0, 0, 1⟩).ray.direction =
      normalizeR (Dielectric.reflect (Dielectric.wo ⟨⟨0, 0, 0⟩, ⟨4/5, 0, 3/5⟩⟩)
        (Dielectric.normalCorrected ⟨⟨0, 0, 0⟩, ⟨4/5, 0, 3/5⟩⟩ ⟨0, 0, 1⟩)) := by
  refine dielectric_shade_total_internal_reflection ⟨2, ⟨1, 1, 1⟩⟩ 0
    ⟨⟨0, 0, 0⟩, ⟨4/5, 0, 3/5⟩⟩ ⟨0, 0, 0⟩ ⟨0, 0, 1⟩ (by norm_num) ?_
  have hd : Vec3.dot (⟨4/5, 0, 3/5⟩ : Vec3 ℝ) ⟨4/5, 0, 3/5⟩ = 1 := by
    simp only [Vec3.dot]
    norm_num
  have hnorm : normalizeR ⟨4/5, 0, 3/5⟩ = (⟨4/5, 0, 3/5⟩ : Vec3 ℝ) := by
    unfold normalizeR
    rw [hd, Real.sqrt_one]
    exact Vec3.ext3 (div_one _) (div_one _) (div_one _)
  have hwo : Dielectric.wo ⟨⟨0, 0, 0⟩, ⟨4/5, 0, 3/5⟩⟩ = (⟨-(4/5), 0, -(3/5)⟩ : Vec3 ℝ) := by
    unfold Dielectric.wo
    rw [hnorm]
    exact Vec3.ext3 rfl neg_zero rfl
  have hdotn : Vec3.dot (Dielectric.wo ⟨⟨0, 0, 0⟩, ⟨4/5, 0, 3/5⟩⟩) (⟨0, 0, 1⟩ : Vec3 ℝ) =
      -(3/5) := by
    rw [hwo]
    simp only [Vec3.dot]
    norm_num
  have hnc : Dielectric.normalCorrected ⟨⟨0, 0, 0⟩, ⟨4/5, 0, 3/5⟩⟩ (⟨0, 0, 1⟩ : Vec3 ℝ) =
      (⟨-0, -0, -1⟩ : Vec3 ℝ) := by
    unfold Dielectric.normalCorrected
    rw [if_neg (by rw [hdotn]; norm_num)]
    rfl
  have hwo2 : Vec3.dot (Dielectric.wo ⟨⟨0, 0, 0⟩, ⟨4/5, 0, 3/5⟩⟩)
      (Dielectric.wo ⟨⟨0, 0, 0⟩, ⟨4/5, 0, 3/5⟩⟩) = 1 := by
    rw [hwo]
    simp only [Vec3.dot]
    norm_num
  have heta : Dielectric.etaRatio ⟨2, ⟨1, 1, 1⟩⟩ ⟨⟨0, 0, 0⟩, ⟨4/5, 0, 3/5⟩⟩
      (⟨0, 0, 1⟩ : Vec3 ℝ) = 2 := by
    unfold Dielectric.etaRatio
    rw [if_neg (by rw [hdotn]; norm_num)]
    norm_num
  rw [refractionDiscriminant_eq, heta, hwo, hnc]
  simp only [Vec3.dot]
  norm_num

/-! ### Claims C7 and C10 (Metal) -/

theorem normalizeR_down : normalizeR (⟨0, 0, -1⟩ : Vec3 ℝ) = ⟨0, 0, -1⟩ := by
  unfold normalizeR
  rw [show Vec3.dot (⟨0, 0, -1⟩ : Vec3 ℝ) ⟨0, 0, -1⟩ = 1 by
    simp only [Vec3.dot]; norm_num]
  rw [Real.sqrt_one]
  exact Vec3.ext3 (div_one _) (div_one _) (div_one _)

/-- Claim C7: `Metal::shade` always returns attenuation exactly equal
to the albedo and pdf exactly 1; and whenever the roughness-blended
perturbed direction points into the surface (negative dot with the
normal), the returned continuation direction is the perfect reflection
direction instead. -/
theorem metal_shade_spec (m : Metal) (ray : Ray ℝ)
    (hitPoint normal sampleLocal : Vec3 ℝ) :
    (m.shade ray hitPoint normal sampleLocal).attenuation = m.albedo ∧
    (m.shade ray hitPoint normal sampleLocal).pdf = 1 ∧
    (Vec3.dot (m.perturbDirection (Metal.reflect (normalizeR ray.direction) normal)
        sampleLocal) normal < 0 →
      (m.shade ray hitPoint normal sampleLocal).ray.direction =
        Metal.reflect (normalizeR ray.direction) normal) := by
  refine ⟨rfl, rfl, fun h => ?_⟩
  simp only [Metal.shade]
  rw [if_pos h]

/-- Claim C7, witness: a fully rough metal (`roughness = 1`) with the
sampled local direction pointing straight down: the blended direction
points into the surface, and `shade` falls back to the perfect
reflection. -/
theorem metal_shade_spec_witness :
    (Metal.shade ⟨⟨1, 1, 1⟩, 1⟩ ⟨⟨0, 0, 0⟩, ⟨0, 0, -1⟩⟩ ⟨0, 0, 0⟩ ⟨0, 0, 1⟩
      ⟨0, 0, -1⟩).attenuation = ⟨1, 1, 1⟩ ∧
    (Metal.shade ⟨⟨1, 1, 1⟩, 1⟩ ⟨⟨0, 0, 0⟩, ⟨0, 0, -1⟩⟩ ⟨0, 0, 0⟩ ⟨0, 0, 1⟩
      ⟨0, 0, -1⟩).pdf = 1 ∧
    (Metal.shade ⟨⟨1, 1, 1⟩, 1⟩ ⟨⟨0, 0, 0⟩, ⟨0, 0, -1⟩⟩ ⟨0, 0, 0⟩ ⟨0, 0, 1⟩
      ⟨0, 0, -1⟩).ray.direction =
      Metal.reflect (normalizeR (⟨0, 0, -1⟩ : Vec3 ℝ)) ⟨0, 0, 1⟩ := by
  have h := metal_shade_spec ⟨⟨1, 1, 1⟩, 1⟩ ⟨⟨0, 0, 0⟩, ⟨0, 0, -1⟩⟩ ⟨0, 0, 0⟩
    ⟨0, 0, 1⟩ ⟨0, 0, -1⟩
  have hperf : Metal.reflect (⟨0, 0, -1⟩ : Vec3 ℝ) ⟨0, 0, 1⟩ =
      (⟨0, 0, 1⟩ : Vec3 ℝ) := by
    unfold Metal.reflect
    refine Vec3.ext3 ?_ ?_ ?_ <;>
      · simp only [Vec3.dot, Vec3.sub_x, Vec3.sub_y, Vec3.sub_z,
          Vec3.smul_x, Vec3.smul_y, Vec3.smul_z]
        norm_num
  have hmix : mixV (⟨0, 0, 1⟩ : Vec3 ℝ) ⟨0, 0, -1⟩ 1 = ⟨0, 0, -1⟩ := by
    unfold mixV
    refine Vec3.ext3 ?_ ?_ ?_ <;>
      · simp only [Vec3.add_x, Vec3.add_y, Vec3.add_z,
          Vec3.smul_x, Vec3.smul_y, Vec3.smul_z]
        norm_num
  have hpert : Metal.perturbDirection ⟨⟨1, 1, 1⟩, 1⟩
      (Metal.reflect (normalizeR (⟨0, 0, -1⟩ : Vec3 ℝ)) ⟨0, 0, 1⟩) ⟨0, 0, -1⟩ =
      (⟨0, 0, -1⟩ : Vec3 ℝ) := by
    simp only [Metal.perturbDirection]
    rw [if_neg (by norm_num)]
    rw [normalizeR_down, hperf, hmix, normalizeR_down]
  refine ⟨h.1, h.2.1, h.2.2 ?_⟩
  show Vec3.dot (Metal.perturbDirection ⟨⟨1, 1, 1⟩, 1⟩
      (Metal.reflect (normalizeR (⟨0, 0, -1⟩ : Vec3 ℝ)) ⟨0, 0, 1⟩) ⟨0, 0, -1⟩)
      ⟨0, 0, 1⟩ < 0
  rw [hpert]
  simp only [Vec3.dot]
  norm_num

/-- Claim C10, counterexample: the claim as stated fails for a
non-unit normal.  With normal `(0, 0, 1/2)`, incident direction
`(0, 0, -1)` (which points against the normal: the dot product is
`-1/2 < 0`), roughness 1 and a downward perturbed sample, `shade`
rejects the blended direction and returns the perfect-reflection
direction `(0, 0, -1/2)` — whose dot product with the normal is
`-1/4 < 0`: the scattered ray points into the surface. -/
theorem metal_shade_into_surface_counterexample :
    Vec3.dot (normalizeR (⟨0, 0, -1⟩ : Vec3 ℝ)) ⟨0, 0, 1/2⟩ < 0 ∧
    Vec3.dot ((Metal.shade ⟨⟨1, 1, 1⟩, 1⟩ ⟨⟨0, 0, 0⟩, ⟨0, 0, -1⟩⟩ ⟨0, 0, 0⟩
      ⟨0, 0, 1/2⟩ ⟨0, 0, -1⟩).ray.direction) ⟨0, 0, 1/2⟩ < 0 := by
  have hperf : Metal.reflect (⟨0, 0, -1⟩ : Vec3 ℝ) ⟨0, 0, 1/2⟩ =
      (⟨0, 0, -(1/2)⟩ : Vec3 ℝ) := by
    unfold Metal.reflect
    refine Vec3.ext3 ?_ ?_ ?_ <;>
      · simp only [Vec3.dot, Vec3.sub_x, Vec3.sub_y, Vec3.sub_z,
          Vec3.smul_x, Vec3.smul_y, Vec3.smul_z]
        norm_num
  have hmix : mixV (⟨0, 0, -(1/2)⟩ : Vec3 ℝ) ⟨0, 0, -1⟩ 1 = ⟨0, 0, -1⟩ := by
    unfold mixV
    refine Vec3.ext3 ?_ ?_ ?_ <;>
      · simp only [Vec3.add_x, Vec3.add_y, Vec3.add_z,
          Vec3.smul_x, Vec3.smul_y, Vec3.smul_z]
        norm_num
  have hpert : Metal.perturbDirection ⟨⟨1, 1, 1⟩, 1⟩
      (Metal.reflect (normalizeR (⟨0, 0, -1⟩ : Vec3 ℝ)) ⟨0, 0, 1/2⟩) ⟨0, 0, -1⟩ =
      (⟨0, 0, -1⟩ : Vec3 ℝ) := by
    simp only [Metal.perturbDirection]
    rw [if_neg (by norm_num)]
    rw [normalizeR_down, hperf, hmix, normalizeR_down]
  constructor
  · rw [normalizeR_down]
    simp only [Vec3.dot]
    norm_num
  · simp only [Metal.shade]
    rw [hpert]
    rw [if_pos (show Vec3.dot (⟨0, 0, -1⟩ : Vec3 ℝ) ⟨0, 0, 1/2⟩ < 0 by
      simp only [Vec3.dot]; norm_num)]
    rw [normalizeR_down, hperf]
    simp only [Vec3.dot]
    norm_num

/-- Claim C10 (amended): for a unit surface normal — as delivered by
the scene's intersection routines — whenever the incident direction
points against the normal, the continuation direction returned by
`Metal::shade` has a non-negative dot product with the normal: either
the blended direction already points out of the surface, or the
perfect reflection (whose dot with a unit normal is the negation of
the incident one's) is returned.  (The unit-normal hypothesis is
forced by the counterexample with normal `(0, 0, 1/2)`.) -/
theorem metal_shade_not_into_surface (m : Metal) (ray : Ray ℝ)
    (hitPoint normal sampleLocal : Vec3 ℝ)
    (hn : Vec3.dot normal normal = 1)
    (hdir : Vec3.dot (normalizeR ray.direction) normal < 0) :
    0 ≤ Vec3.dot (m.shade ray hitPoint normal sampleLocal).ray.direction normal := by
  simp only [Metal.shade]
  by_cases hc : Vec3.dot (m.perturbDirection
      (Metal.reflect (normalizeR ray.direction) normal) sampleLocal) normal < 0
  · rw [if_pos hc]
    have hrf : Vec3.dot (Metal.reflect (normalizeR ray.direction) normal) normal =
        Vec3.dot (normalizeR ray.direction) normal -
          2 * Vec3.dot (normalizeR ray.direction) normal * Vec3.dot normal normal := by
      unfold Metal.reflect
      rw [Vec3.dot_sub_left, Vec3.dot_smul_left]
    rw [hrf, hn]
    linarith
  · rw [if_neg hc]
    exact le_of_not_lt hc

/-- Claim C10, witness: the amended statement at a unit normal
`(0, 0, 1)` with incident direction `(0, 0, -1)`. -/
theorem metal_shade_not_into_surface_witness :
    0 ≤ Vec3.dot (Metal.shade ⟨⟨1, 1, 1⟩, 1⟩ ⟨⟨0, 0, 0⟩, ⟨0, 0, -1⟩⟩ ⟨0, 0, 0⟩
      ⟨0, 0, 1⟩ ⟨0, 0, -1⟩).ray.direction ⟨0, 0, 1⟩ := by
  refine metal_shade_not_into_surface ⟨⟨1, 1, 1⟩, 1⟩ ⟨⟨0, 0, 0⟩, ⟨0, 0, -1⟩⟩ ⟨0, 0, 0⟩
    ⟨0, 0, 1⟩ ⟨0, 0, -1⟩ ?_ ?_
  · simp only [Vec3.dot]
    norm_num
  · rw [normalizeR_down]
    simp only [Vec3.dot]
    norm_num

end SimplePathTracer
